import Mathlib

/-!
Verification of the SLRU (segmented LRU) cache from `slru.go`.

The cache state is embedded shallowly: the two segment lists (`probation`,
`protected`) are Lean lists of keys, front first; the lookup map is an
association list from keys to values.  In the Go code a map entry and a
list node share one `entry` object, and a key resides in at most one of
the two lists at a time, so a key identifies the node; the structural
invariant `SLRU.Inv` below records exactly this coherence.

The repository's own `list` package is not part of the sources; its
operations are modelled from the spec: `pushFront` is cons, `moveToFront`
is erase-then-cons, `remove` is erase, `length` is list length, and
`back` returns the last element and fails on an empty list.  Accordingly
every operation that may call `evict` (namely `Set` and `Get`) is
embedded as an `Option`-valued function, and `none` marks the one failure
the spec forbids: reading `back()` of an empty list.

Go's `New` computes `int(DefaultProbationRatio * float64(size))` with
`DefaultProbationRatio = 0.2`.  Since 0.2 is not a binary float this is
not always `size / 5`; the float64 computation is modelled exactly below
(`goProbationCap`) as integer arithmetic with round-to-nearest-even.
-/

namespace SlruSpec

/-- Number of binary digits of `n`, computed with explicit fuel so that it
reduces by kernel evaluation; `bitlenAux fuel n` is correct for `n < 2 ^ fuel`. -/
def bitlenAux : Nat → Nat → Nat
  | 0, _ => 0
  | fuel + 1, n => if n = 0 then 0 else bitlenAux fuel (n / 2) + 1

/-- Number of binary digits of `n`, for `n < 2 ^ 128` (all values arising here). -/
def bitlen (n : Nat) : Nat := bitlenAux 128 n

/-- Round `a` to the nearest multiple of `2 ^ sh`, ties to even, as IEEE-754
round-to-nearest-even does on a trailing window of `sh` bits. -/
def rne (a : Nat) (sh : Nat) : Nat :=
  if sh = 0 then a
  else if a % 2 ^ sh < 2 ^ sh / 2 then a / 2 ^ sh * 2 ^ sh
  else if 2 ^ sh / 2 < a % 2 ^ sh then (a / 2 ^ sh + 1) * 2 ^ sh
  else if a / 2 ^ sh % 2 = 0 then a / 2 ^ sh * 2 ^ sh
  else (a / 2 ^ sh + 1) * 2 ^ sh

/-- Round a natural number to 53 significant bits, i.e. to the nearest
float64-representable integer (round-to-nearest-even). -/
def floatRound53 (a : Nat) : Nat := rne a (bitlen a - 53)

/-- Models the Go expression `int(DefaultProbationRatio * float64(size))` from
`New`: the float64 literal 0.2 is exactly 3602879701896397 / 2^54; `float64(size)`
rounds `size` to 53 bits; the multiplication rounds the exact product to 53
bits; `int(...)` truncates toward zero. -/
def goProbationCap (size : Nat) : Nat :=
  floatRound53 (3602879701896397 * floatRound53 size) / 2 ^ 54

variable {K V : Type}

/-- Lookup in the association-list model of the Go map `items`. -/
def lookupKey [DecidableEq K] (k : K) : List (K × V) → Option V
  | [] => none
  | p :: ps => if p.1 = k then some p.2 else lookupKey k ps

/-- Models `delete(s.items, key)`: removes the binding of `k` from the map. -/
def eraseKey [DecidableEq K] (k : K) : List (K × V) → List (K × V)
  | [] => []
  | p :: ps => if p.1 = k then eraseKey k ps else p :: eraseKey k ps

/-- Models the in-place write `e.Value.(*entry[K, V]).value = value`: the entry
holding key `k`, wherever it is referenced, now carries value `v`; bindings of
other keys are untouched and no binding is created. -/
def updateValue [DecidableEq K] (k : K) (v : V) : List (K × V) → List (K × V)
  | [] => []
  | p :: ps => if p.1 = k then (k, v) :: updateValue k v ps else p :: updateValue k v ps

/-- Keys bound in the association-list model of the map. -/
def keys : List (K × V) → List K := List.map Prod.fst

/-- Modelled from the spec: `back()` returns the least-recently-used (last)
element and fails on an empty list; `remove` of that element drops it.
`popBack l` returns the back element together with the remaining list, or
`none` when `l` is empty. -/
def popBack (l : List K) : Option (K × List K) :=
  match l.reverse with
  | [] => none
  | x :: xs => some (x, xs.reverse)

/-- State of the Go struct `SLRU[K, V]`: the lookup map, the two segment
lists (front first), and the capacities computed by `New`.  Values live in
`items`; a list node is identified by its key (see `Inv`). -/
structure SLRU (K V : Type) where
  size : Nat
  items : List (K × V)
  probation : List K
  protectedL : List K
  probationSize : Nat
  protectedSize : Nat
  deriving DecidableEq

/-- Models `New[K, V](size)`. -/
def new (K V : Type) (size : Nat) : SLRU K V :=
  { size := size
    items := []
    probation := []
    protectedL := []
    probationSize := goProbationCap size
    protectedSize := size - goProbationCap size }

namespace SLRU

variable [DecidableEq K]

/-- Models `evict(s.probation)`: read `back()` (failing on an empty list),
delete its key from the map, remove the element from the list. -/
def evictProbation (s : SLRU K V) : Option (SLRU K V) :=
  match popBack s.probation with
  | none => none
  | some (victim, rest) =>
      some { s with items := eraseKey victim s.items, probation := rest }

/-- Models `evict(s.protected)`: read `back()` (failing on an empty list),
delete its key from the map, remove the element from the list. -/
def evictProtected (s : SLRU K V) : Option (SLRU K V) :=
  match popBack s.protectedL with
  | none => none
  | some (victim, rest) =>
      some { s with items := eraseKey victim s.items, protectedL := rest }

/-- Models the probation-hit branch shared by `Set` and `Get`:
`items[key] = protected.PushFront(e.Value); probation.Remove(e);
if protected.Len() > protectedSize { evict(protected) }`. -/
def promote (s : SLRU K V) (k : K) : Option (SLRU K V) :=
  let s1 : SLRU K V :=
    { s with protectedL := k :: s.protectedL, probation := s.probation.erase k }
  if s1.protectedL.length > s1.protectedSize then evictProtected s1 else some s1

/-- Models `Set(key, value)`.  On a hit the element is refreshed or promoted
and the entry's value is overwritten in place; on a miss probation is evicted
first when it is at or over capacity, then the new entry is pushed to the
front of probation and recorded in the map. -/
def set (s : SLRU K V) (k : K) (v : V) : Option (SLRU K V) :=
  if (lookupKey k s.items).isSome then
    if k ∈ s.protectedL then
      some { s with protectedL := k :: s.protectedL.erase k,
                    items := updateValue k v s.items }
    else if k ∈ s.probation then
      (promote s k).map fun s1 => { s1 with items := updateValue k v s1.items }
    else
      some { s with items := updateValue k v s.items }
  else
    (if s.probation.length ≥ s.probationSize then evictProbation s else some s).map
      fun s1 => { s1 with probation := k :: s1.probation, items := (k, v) :: s1.items }

/-- Models `Get(key)`: same refresh/promotion logic as the hit path of `Set`;
returns the entry's value and true on a hit, the zero value and false
(modelled as `none`) on a miss.  The returned value is read from the entry
object, which promotion does not rewrite. -/
def get (s : SLRU K V) (k : K) : Option (SLRU K V × Option V) :=
  match lookupKey k s.items with
  | none => some (s, none)
  | some v =>
    if k ∈ s.protectedL then
      some ({ s with protectedL := k :: s.protectedL.erase k }, some v)
    else if k ∈ s.probation then
      (promote s k).map fun s1 => (s1, some v)
    else
      some (s, some v)

/-- Models `Peek(key)`: a pure lookup under the read lock; the state is
returned unchanged. -/
def peek (s : SLRU K V) (k : K) : SLRU K V × Option V :=
  (s, lookupKey k s.items)

/-- Models `Contains(key)`: a pure existence check under the read lock. -/
def containsKey (s : SLRU K V) (k : K) : Bool :=
  (lookupKey k s.items).isSome

/-- Models `Len()`: `probation.Len() + protected.Len()`. -/
def len (s : SLRU K V) : Nat :=
  s.probation.length + s.protectedL.length

/-- Models `Purge()`: the map and both lists are replaced by empty instances. -/
def purge (s : SLRU K V) : SLRU K V :=
  { s with items := [], probation := [], protectedL := [] }

/-- Structural coherence of a cache state: the map has no duplicate keys,
each segment list has no duplicates, the segments are disjoint, and a key is
bound in the map exactly when it sits in one of the two segment lists. -/
def Inv (s : SLRU K V) : Prop :=
  (keys s.items).Nodup ∧ s.probation.Nodup ∧ s.protectedL.Nodup ∧
  (∀ k ∈ s.probation, k ∉ s.protectedL) ∧
  (∀ k ∈ s.probation, k ∈ keys s.items) ∧
  (∀ k ∈ s.protectedL, k ∈ keys s.items) ∧
  (∀ k ∈ keys s.items, k ∈ s.probation ∨ k ∈ s.protectedL)

instance (s : SLRU K V) : Decidable (Inv s) := by
  unfold Inv; infer_instance

/-- Capacity bounds of the two segments, as maintained by every operation. -/
def CapOk (s : SLRU K V) : Prop :=
  s.probation.length ≤ s.probationSize ∧ s.protectedL.length ≤ s.protectedSize

instance (s : SLRU K V) : Decidable (CapOk s) := by
  unfold CapOk; infer_instance

end SLRU

/-- One call of the cache's public interface. -/
inductive Op (K V : Type) where
  | set : K → V → Op K V
  | get : K → Op K V
  | peek : K → Op K V
  | contains : K → Op K V
  | purge : Op K V
  deriving DecidableEq

/-- Read-only operations: the ones the Go code runs under the shared lock. -/
def Op.isReadOnly : Op K V → Bool
  | .peek _ => true
  | .contains _ => true
  | _ => false

/-- Effect of one call on the cache state.  `peek` and `contains` hold only
the read lock and their bodies do not write, so the state they leave is the
one they were given; `none` records a call that read `back()` of an empty
list. -/
def stepOp [DecidableEq K] (s : SLRU K V) : Op K V → Option (SLRU K V)
  | .set k v => s.set k v
  | .get k => (s.get k).map Prod.fst
  | .peek k => some (s.peek k).1
  | .contains _ => some s
  | .purge => some s.purge

/-- Run a sequence of calls from a given state. -/
def run [DecidableEq K] (s : SLRU K V) : List (Op K V) → Option (SLRU K V)
  | [] => some s
  | op :: ops =>
    match stepOp s op with
    | none => none
    | some s1 => run s1 ops

/-- The state of `New(10)` after `Set(1, 10)` and `Set(2, 20)`: probation is
full (capacity 2) and holds key 2 in front of key 1. -/
def demoState10 : SLRU Nat Nat :=
  { size := 10, items := [(2, 20), (1, 10)], probation := [2, 1], protectedL := []
    probationSize := 2, protectedSize := 8 }

/-- A call sequence on `New(10)` that fills protected to its capacity 8 with
keys 1..8 and then admits keys 9 and 10 into probation. -/
def fillOps : List (Op Nat Nat) :=
  [Op.set 1 1, Op.get 1, Op.set 2 2, Op.get 2, Op.set 3 3, Op.get 3,
   Op.set 4 4, Op.get 4, Op.set 5 5, Op.get 5, Op.set 6 6, Op.get 6,
   Op.set 7 7, Op.get 7, Op.set 8 8, Op.get 8, Op.set 9 9, Op.set 10 10]

theorem keys_cons (p : K × V) (l : List (K × V)) : keys (p :: l) = p.1 :: keys l := rfl

section AssocLemmas

variable [DecidableEq K]

theorem lookupKey_isSome_iff {k : K} :
    ∀ {l : List (K × V)}, (lookupKey k l).isSome ↔ k ∈ keys l
  | [] => by simp [lookupKey, keys]
  | p :: ps => by
    rw [lookupKey]
    by_cases h : p.1 = k
    · rw [if_pos h]; simp [keys_cons, h]
    · rw [if_neg h, keys_cons, lookupKey_isSome_iff (l := ps), List.mem_cons]
      constructor
      · exact Or.inr
      · rintro (e | e)
        · exact absurd e.symm h
        · exact e

theorem lookupKey_eq_none_iff {k : K} {l : List (K × V)} :
    lookupKey k l = none ↔ k ∉ keys l := by
  rw [← lookupKey_isSome_iff (k := k) (l := l)]
  cases lookupKey k l <;> simp

theorem mem_keys_of_lookupKey_eq_some {k : K} {v : V} {l : List (K × V)}
    (h : lookupKey k l = some v) : k ∈ keys l := by
  rw [← lookupKey_isSome_iff (k := k) (l := l), h]; rfl

theorem eraseKey_eq_filter (k : K) :
    ∀ l : List (K × V), eraseKey k l = l.filter fun p => decide (p.1 ≠ k)
  | [] => rfl
  | p :: ps => by
    by_cases hp : p.1 = k <;>
      simp [eraseKey, hp, eraseKey_eq_filter k ps, List.filter_cons]

theorem mem_keys_eraseKey {k j : K} {l : List (K × V)} :
    j ∈ keys (eraseKey k l) ↔ j ∈ keys l ∧ j ≠ k := by
  simp only [eraseKey_eq_filter, keys, List.mem_map, List.mem_filter,
    decide_eq_true_eq]
  constructor
  · rintro ⟨p, ⟨hp, hne⟩, he⟩
    subst he
    exact ⟨⟨p, hp, rfl⟩, hne⟩
  · rintro ⟨⟨p, hp, he⟩, hne⟩
    subst he
    exact ⟨p, ⟨hp, hne⟩, rfl⟩

theorem nodup_keys_eraseKey {k : K} {l : List (K × V)}
    (h : (keys l).Nodup) : (keys (eraseKey k l)).Nodup := by
  rw [eraseKey_eq_filter]
  exact h.sublist ((List.filter_sublist l).map Prod.fst)

theorem eraseKey_of_not_mem {k : K} :
    ∀ {l : List (K × V)}, k ∉ keys l → eraseKey k l = l
  | [], _ => rfl
  | p :: ps, h => by
    rw [keys_cons] at h
    have hp : p.1 ≠ k := fun he => h (he ▸ List.mem_cons_self _ _)
    rw [eraseKey, if_neg hp,
      eraseKey_of_not_mem (l := ps) fun hm => h (List.mem_cons_of_mem _ hm)]

theorem length_eraseKey_add_one {k : K} :
    ∀ {l : List (K × V)}, (keys l).Nodup → k ∈ keys l →
      (eraseKey k l).length + 1 = l.length
  | p :: ps, h, hm => by
    rw [keys_cons] at h hm
    by_cases hp : p.1 = k
    · rw [eraseKey, if_pos hp,
        eraseKey_of_not_mem (l := ps) (hp ▸ (List.nodup_cons.mp h).1)]
      simp
    · have hmem : k ∈ keys ps := by
        rcases List.mem_cons.mp hm with h1 | h1
        · exact absurd h1.symm hp
        · exact h1
      rw [eraseKey, if_neg hp, List.length_cons, List.length_cons,
        ← length_eraseKey_add_one (l := ps) (List.nodup_cons.mp h).2 hmem]

theorem lookupKey_eraseKey_self {k : K} {l : List (K × V)} :
    lookupKey k (eraseKey k l) = none := by
  rw [lookupKey_eq_none_iff]
  exact fun hm => (mem_keys_eraseKey.mp hm).2 rfl

theorem lookupKey_eraseKey_ne {k j : K} (hne : j ≠ k) :
    ∀ {l : List (K × V)}, lookupKey j (eraseKey k l) = lookupKey j l
  | [] => rfl
  | p :: ps => by
    by_cases hp : p.1 = k
    · have hj : p.1 ≠ j := fun hh => hne (hh ▸ hp)
      rw [eraseKey, if_pos hp, lookupKey, if_neg hj]
      exact lookupKey_eraseKey_ne hne (l := ps)
    · by_cases hj : p.1 = j
      · rw [eraseKey, if_neg hp, lookupKey, if_pos hj, lookupKey, if_pos hj]
      · rw [eraseKey, if_neg hp, lookupKey, if_neg hj, lookupKey, if_neg hj]
        exact lookupKey_eraseKey_ne hne (l := ps)

theorem keys_updateValue {k : K} {v : V} :
    ∀ {l : List (K × V)}, keys (updateValue k v l) = keys l
  | [] => rfl
  | p :: ps => by
    by_cases hp : p.1 = k
    · rw [updateValue, if_pos hp, keys_cons, keys_cons, ← hp,
        keys_updateValue (l := ps)]
    · rw [updateValue, if_neg hp, keys_cons, keys_cons, keys_updateValue (l := ps)]

theorem length_updateValue {k : K} {v : V} :
    ∀ {l : List (K × V)}, (updateValue k v l).length = l.length
  | [] => rfl
  | p :: ps => by
    by_cases hp : p.1 = k <;>
      simp [updateValue, hp, length_updateValue (l := ps)]

theorem lookupKey_updateValue_self {k : K} {v : V} :
    ∀ {l : List (K × V)}, k ∈ keys l → lookupKey k (updateValue k v l) = some v
  | p :: ps, hm => by
    by_cases hp : p.1 = k
    · rw [updateValue, if_pos hp, lookupKey, if_pos rfl]
    · rw [keys_cons] at hm
      have hmem : k ∈ keys ps := by
        rcases List.mem_cons.mp hm with h1 | h1
        · exact absurd h1.symm hp
        · exact h1
      rw [updateValue, if_neg hp, lookupKey, if_neg hp]
      exact lookupKey_updateValue_self (l := ps) hmem

theorem lookupKey_updateValue_ne {k j : K} {v : V} (hne : j ≠ k) :
    ∀ {l : List (K × V)}, lookupKey j (updateValue k v l) = lookupKey j l
  | [] => rfl
  | p :: ps => by
    by_cases hp : p.1 = k
    · have hj : k ≠ j := fun hh => hne hh.symm
      rw [updateValue, if_pos hp, lookupKey, if_neg hj, lookupKey,
        if_neg (hp ▸ hj : p.1 ≠ j)]
      exact lookupKey_updateValue_ne hne (l := ps)
    · by_cases hj : p.1 = j
      · rw [updateValue, if_neg hp, lookupKey, if_pos hj, lookupKey, if_pos hj]
      · rw [updateValue, if_neg hp, lookupKey, if_neg hj, lookupKey, if_neg hj]
        exact lookupKey_updateValue_ne hne (l := ps)

end AssocLemmas

section PopBackLemmas

theorem popBack_eq_none_iff {l : List K} : popBack l = none ↔ l = [] := by
  unfold popBack
  constructor
  · intro h
    cases hr : l.reverse with
    | nil => simpa using congrArg List.reverse hr
    | cons x xs => rw [hr] at h; simp at h
  · intro h; subst h; rfl

theorem eq_append_of_popBack {l rest : List K} {x : K}
    (h : popBack l = some (x, rest)) : l = rest ++ [x] := by
  unfold popBack at h
  cases hr : l.reverse with
  | nil => rw [hr] at h; simp at h
  | cons y ys =>
    rw [hr] at h
    simp only [Option.some.injEq, Prod.mk.injEq] at h
    have hl : l = (y :: ys).reverse := by
      rw [← hr, List.reverse_reverse]
    rw [hl, List.reverse_cons, h.1, h.2]

theorem popBack_isSome_of_ne_nil {l : List K} (h : l ≠ []) :
    (popBack l).isSome := by
  cases hp : popBack l with
  | none => exact absurd (popBack_eq_none_iff.mp hp) h
  | some p => rfl

theorem popBack_length {l rest : List K} {x : K}
    (h : popBack l = some (x, rest)) : l.length = rest.length + 1 := by
  rw [eq_append_of_popBack h]; simp

theorem popBack_mem_iff {l rest : List K} {x : K}
    (h : popBack l = some (x, rest)) : ∀ j, j ∈ l ↔ j ∈ rest ∨ j = x := by
  intro j; rw [eq_append_of_popBack h]; simp

theorem popBack_mem {l rest : List K} {x : K}
    (h : popBack l = some (x, rest)) : x ∈ l :=
  (popBack_mem_iff h x).mpr (Or.inr rfl)

theorem popBack_nodup {l rest : List K} {x : K}
    (h : popBack l = some (x, rest)) (hn : l.Nodup) :
    rest.Nodup ∧ x ∉ rest := by
  rw [eq_append_of_popBack h, List.nodup_append] at hn
  exact ⟨hn.1, fun hm => hn.2.2 hm (List.mem_singleton_self x)⟩

theorem popBack_cons_head {k victim : K} {l rest : List K}
    (hne : l ≠ []) (h : popBack (k :: l) = some (victim, rest)) :
    ∃ tail, rest = k :: tail ∧ l = tail ++ [victim] := by
  have he := eq_append_of_popBack h
  cases rest with
  | nil =>
    simp only [List.nil_append, List.cons.injEq] at he
    exact absurd he.2 hne
  | cons r0 tail =>
    rw [List.cons_append] at he
    simp only [List.cons.injEq] at he
    exact ⟨tail, by rw [he.1], he.2⟩

end PopBackLemmas

namespace SLRU

section OpSpecs

variable [DecidableEq K] {s s1 s' : SLRU K V} {k : K} {v : V}

theorem promote_noevict (hle : s.protectedL.length + 1 ≤ s.protectedSize) :
    promote s k =
      some { s with protectedL := k :: s.protectedL, probation := s.probation.erase k } := by
  unfold promote
  rw [if_neg (by simpa using Nat.not_lt.mpr hle)]

theorem promote_evict {victim : K} {rest : List K}
    (hgt : s.protectedSize < s.protectedL.length + 1)
    (hpop : popBack (k :: s.protectedL) = some (victim, rest)) :
    promote s k =
      some { s with protectedL := rest, probation := s.probation.erase k,
                    items := eraseKey victim s.items } := by
  unfold promote evictProtected
  rw [if_pos (by simpa using hgt)]
  simp only [hpop]

theorem promote_isSome (s : SLRU K V) (k : K) : (promote s k).isSome := by
  unfold promote
  by_cases hgt : (k :: s.protectedL).length > s.protectedSize
  · rw [if_pos (by simpa using hgt)]
    unfold evictProtected
    cases hp : popBack (k :: s.protectedL) with
    | none => exact absurd (popBack_eq_none_iff.mp hp) (by simp)
    | some p => rfl
  · rw [if_neg (by simpa using hgt)]; rfl

theorem set_hit_protected (hk : (lookupKey k s.items).isSome) (hmem : k ∈ s.protectedL) :
    set s k v = some { s with protectedL := k :: s.protectedL.erase k,
                              items := updateValue k v s.items } := by
  unfold set
  rw [if_pos hk, if_pos hmem]

theorem set_hit_probation (hk : (lookupKey k s.items).isSome)
    (hnp : k ∉ s.protectedL) (hmem : k ∈ s.probation) :
    set s k v = (promote s k).map fun t => { t with items := updateValue k v t.items } := by
  unfold set
  rw [if_pos hk, if_neg hnp, if_pos hmem]

theorem set_hit_neither (hk : (lookupKey k s.items).isSome)
    (hnp : k ∉ s.protectedL) (hnb : k ∉ s.probation) :
    set s k v = some { s with items := updateValue k v s.items } := by
  unfold set
  rw [if_pos hk, if_neg hnp, if_neg hnb]

theorem set_miss_noevict (hk : lookupKey k s.items = none)
    (hlt : s.probation.length < s.probationSize) :
    set s k v = some { s with probation := k :: s.probation,
                              items := (k, v) :: s.items } := by
  unfold set
  rw [if_neg (by simp [hk]), if_neg (Nat.not_le.mpr hlt)]
  rfl

theorem set_miss_evict {victim : K} {rest : List K} (hk : lookupKey k s.items = none)
    (hge : s.probationSize ≤ s.probation.length)
    (hpop : popBack s.probation = some (victim, rest)) :
    set s k v = some { s with probation := k :: rest,
                              items := (k, v) :: eraseKey victim s.items } := by
  unfold set evictProbation
  rw [if_neg (by simp [hk]), if_pos hge]
  simp only [hpop, Option.map_some']

theorem get_miss (hk : lookupKey k s.items = none) : get s k = some (s, none) := by
  unfold get
  rw [hk]

theorem get_hit_protected {w : V} (hk : lookupKey k s.items = some w)
    (hmem : k ∈ s.protectedL) :
    get s k = some ({ s with protectedL := k :: s.protectedL.erase k }, some w) := by
  unfold get
  rw [hk]
  simp only [if_pos hmem]

theorem get_hit_probation {w : V} (hk : lookupKey k s.items = some w)
    (hnp : k ∉ s.protectedL) (hmem : k ∈ s.probation) :
    get s k = (promote s k).map fun t => (t, some w) := by
  unfold get
  rw [hk]
  simp only [if_neg hnp, if_pos hmem]

theorem get_hit_neither {w : V} (hk : lookupKey k s.items = some w)
    (hnp : k ∉ s.protectedL) (hnb : k ∉ s.probation) :
    get s k = some (s, some w) := by
  unfold get
  rw [hk]
  simp only [if_neg hnp, if_neg hnb]

end OpSpecs

section InvLemmas

variable [DecidableEq K] {s s1 s' t t' : SLRU K V} {k : K} {v : V}

theorem inv_updateValue (hInv : Inv s) :
    Inv { s with items := updateValue k v s.items } := by
  unfold Inv at hInv ⊢
  obtain ⟨h1, h2, h3, h4, h5, h6, h7⟩ := hInv
  refine ⟨?_, h2, h3, h4, ?_, ?_, ?_⟩ <;>
    simp only [keys_updateValue] <;> first | exact h1 | exact h5 | exact h6 | exact h7

theorem inv_pushNew (hInv : Inv s) (hk : k ∉ keys s.items) :
    Inv { s with probation := k :: s.probation, items := (k, v) :: s.items } := by
  unfold Inv at hInv ⊢
  obtain ⟨h1, h2, h3, h4, h5, h6, h7⟩ := hInv
  have hkp : k ∉ s.probation := fun hm => hk (h5 k hm)
  have hkt : k ∉ s.protectedL := fun hm => hk (h6 k hm)
  refine ⟨?_, ?_, h3, ?_, ?_, ?_, ?_⟩
  · exact List.nodup_cons.mpr ⟨hk, h1⟩
  · exact List.nodup_cons.mpr ⟨hkp, h2⟩
  · intro j hj
    rcases List.mem_cons.mp hj with e | e
    · exact e ▸ hkt
    · exact h4 j e
  · intro j hj
    rcases List.mem_cons.mp hj with e | e
    · exact e ▸ List.mem_cons_self _ _
    · exact List.mem_cons_of_mem _ (h5 j e)
  · intro j hj
    exact List.mem_cons_of_mem _ (h6 j hj)
  · intro j hj
    rcases List.mem_cons.mp hj with e | e
    · exact Or.inl (e ▸ List.mem_cons_self _ _)
    · rcases h7 j e with h | h
      · exact Or.inl (List.mem_cons_of_mem _ h)
      · exact Or.inr h

theorem inv_evictedProb (hInv : Inv s) {victim : K} {rest : List K}
    (hpop : popBack s.probation = some (victim, rest)) :
    Inv { s with items := eraseKey victim s.items, probation := rest } := by
  unfold Inv at hInv ⊢
  obtain ⟨h1, h2, h3, h4, h5, h6, h7⟩ := hInv
  have hvic : victim ∈ s.probation := popBack_mem hpop
  have hmem := popBack_mem_iff hpop
  have hnd := popBack_nodup hpop h2
  refine ⟨nodup_keys_eraseKey h1, hnd.1, h3, ?_, ?_, ?_, ?_⟩
  · intro j hj
    exact h4 j ((hmem j).mpr (Or.inl hj))
  · intro j hj
    refine mem_keys_eraseKey.mpr ⟨h5 j ((hmem j).mpr (Or.inl hj)), ?_⟩
    exact fun he => hnd.2 (he ▸ hj)
  · intro j hj
    refine mem_keys_eraseKey.mpr ⟨h6 j hj, fun he => ?_⟩
    exact h4 victim hvic (he ▸ hj)
  · intro j hj
    obtain ⟨hjk, hjne⟩ := mem_keys_eraseKey.mp hj
    rcases h7 j hjk with h | h
    · rcases (hmem j).mp h with h' | h'
      · exact Or.inl h'
      · exact absurd h' hjne
    · exact Or.inr h

theorem inv_evictedProt (hInv : Inv s) {victim : K} {rest : List K}
    (hpop : popBack s.protectedL = some (victim, rest)) :
    Inv { s with items := eraseKey victim s.items, protectedL := rest } := by
  unfold Inv at hInv ⊢
  obtain ⟨h1, h2, h3, h4, h5, h6, h7⟩ := hInv
  have hvic : victim ∈ s.protectedL := popBack_mem hpop
  have hmem := popBack_mem_iff hpop
  have hnd := popBack_nodup hpop h3
  refine ⟨nodup_keys_eraseKey h1, h2, hnd.1, ?_, ?_, ?_, ?_⟩
  · intro j hj hr
    exact h4 j hj ((hmem j).mpr (Or.inl hr))
  · intro j hj
    refine mem_keys_eraseKey.mpr ⟨h5 j hj, fun he => ?_⟩
    exact h4 j hj (he ▸ hvic)
  · intro j hj
    refine mem_keys_eraseKey.mpr ⟨h6 j ((hmem j).mpr (Or.inl hj)), ?_⟩
    exact fun he => hnd.2 (he ▸ hj)
  · intro j hj
    obtain ⟨hjk, hjne⟩ := mem_keys_eraseKey.mp hj
    rcases h7 j hjk with h | h
    · exact Or.inl h
    · rcases (hmem j).mp h with h' | h'
      · exact Or.inr h'
      · exact absurd h' hjne

theorem inv_moveToFront (hInv : Inv s) (hmem : k ∈ s.protectedL) :
    Inv { s with protectedL := k :: s.protectedL.erase k } := by
  unfold Inv at hInv ⊢
  obtain ⟨h1, h2, h3, h4, h5, h6, h7⟩ := hInv
  have herase : ∀ j, j ∈ s.protectedL.erase k ↔ j ≠ k ∧ j ∈ s.protectedL :=
    fun j => h3.mem_erase_iff
  refine ⟨h1, h2, ?_, ?_, h5, ?_, ?_⟩
  · refine List.nodup_cons.mpr ⟨fun hm => ?_, h3.erase k⟩
    exact ((herase k).mp hm).1 rfl
  · intro j hj
    have hjk : j ≠ k := fun he => h4 j hj (he ▸ hmem)
    intro hm
    rcases List.mem_cons.mp hm with e | e
    · exact hjk e
    · exact h4 j hj ((herase j).mp e).2
  · intro j hj
    rcases List.mem_cons.mp hj with e | e
    · exact e ▸ h6 k hmem
    · exact h6 j ((herase j).mp e).2
  · intro j hj
    rcases h7 j hj with h | h
    · exact Or.inl h
    · by_cases hjk : j = k
      · exact Or.inr (hjk ▸ List.mem_cons_self _ _)
      · exact Or.inr (List.mem_cons_of_mem _ ((herase j).mpr ⟨hjk, h⟩))

theorem inv_promote_mid (hInv : Inv s) (hmem : k ∈ s.probation) (hnp : k ∉ s.protectedL) :
    Inv { s with protectedL := k :: s.protectedL, probation := s.probation.erase k } := by
  unfold Inv at hInv ⊢
  obtain ⟨h1, h2, h3, h4, h5, h6, h7⟩ := hInv
  have herase : ∀ j, j ∈ s.probation.erase k ↔ j ≠ k ∧ j ∈ s.probation :=
    fun j => h2.mem_erase_iff
  refine ⟨h1, h2.erase k, List.nodup_cons.mpr ⟨hnp, h3⟩, ?_, ?_, ?_, ?_⟩
  · intro j hj
    obtain ⟨hjk, hjp⟩ := (herase j).mp hj
    intro hm
    rcases List.mem_cons.mp hm with e | e
    · exact hjk e
    · exact h4 j hjp e
  · intro j hj
    exact h5 j ((herase j).mp hj).2
  · intro j hj
    rcases List.mem_cons.mp hj with e | e
    · exact e ▸ h5 k hmem
    · exact h6 j e
  · intro j hj
    rcases h7 j hj with h | h
    · by_cases hjk : j = k
      · exact Or.inr (hjk ▸ List.mem_cons_self _ _)
      · exact Or.inl ((herase j).mpr ⟨hjk, h⟩)
    · exact Or.inr (List.mem_cons_of_mem _ h)

theorem inv_evictProtected (hInv : Inv t) (h : t.evictProtected = some t') : Inv t' := by
  unfold evictProtected at h
  cases hpop : popBack t.protectedL with
  | none => rw [hpop] at h; exact absurd h (by simp)
  | some p =>
    rw [hpop] at h
    obtain ⟨victim, rest⟩ := p
    injection h with h
    exact h ▸ inv_evictedProt hInv hpop

theorem inv_evictProbation (hInv : Inv t) (h : t.evictProbation = some t') : Inv t' := by
  unfold evictProbation at h
  cases hpop : popBack t.probation with
  | none => rw [hpop] at h; exact absurd h (by simp)
  | some p =>
    rw [hpop] at h
    obtain ⟨victim, rest⟩ := p
    injection h with h
    exact h ▸ inv_evictedProb hInv hpop

theorem inv_promote (hInv : Inv s) (hmem : k ∈ s.probation) (hnp : k ∉ s.protectedL)
    (hp : promote s k = some s1) : Inv s1 := by
  have hmid := inv_promote_mid hInv hmem hnp
  by_cases hgt : s.protectedSize < s.protectedL.length + 1
  · cases hpop : popBack (k :: s.protectedL) with
    | none => exact absurd (popBack_eq_none_iff.mp hpop) (by simp)
    | some p =>
      obtain ⟨victim, rest⟩ := p
      rw [promote_evict hgt hpop] at hp
      injection hp with hp
      subst hp
      exact inv_evictedProt hmid hpop
  · rw [promote_noevict (Nat.not_lt.mp hgt)] at hp
    injection hp with hp
    exact hp ▸ hmid

theorem inv_set (hInv : Inv s) (h : s.set k v = some s') : Inv s' := by
  cases hk : lookupKey k s.items with
  | some w =>
    have hks : (lookupKey k s.items).isSome := by rw [hk]; rfl
    by_cases hmp : k ∈ s.protectedL
    · rw [set_hit_protected hks hmp] at h
      injection h with h
      exact h ▸ inv_updateValue (inv_moveToFront hInv hmp)
    · by_cases hmb : k ∈ s.probation
      · rw [set_hit_probation hks hmp hmb] at h
        obtain ⟨t, hp1, hf⟩ := Option.map_eq_some'.mp h
        exact hf ▸ inv_updateValue (inv_promote hInv hmb hmp hp1)
      · rw [set_hit_neither hks hmp hmb] at h
        injection h with h
        exact h ▸ inv_updateValue hInv
  | none =>
    have hkk : k ∉ keys s.items := lookupKey_eq_none_iff.mp hk
    by_cases hcap : s.probationSize ≤ s.probation.length
    · cases hpop : popBack s.probation with
      | none =>
        unfold set at h
        rw [if_neg (by simp [hk]), if_pos hcap] at h
        unfold evictProbation at h
        rw [hpop] at h
        exact absurd h (by simp)
      | some p =>
        obtain ⟨victim, rest⟩ := p
        rw [set_miss_evict hk hcap hpop] at h
        injection h with h
        subst h
        have hmid := inv_evictedProb hInv hpop
        have hkk2 : k ∉ keys (eraseKey victim s.items) :=
          fun hm => hkk (mem_keys_eraseKey.mp hm).1
        exact inv_pushNew (v := v) hmid hkk2
    · rw [set_miss_noevict hk (Nat.not_le.mp hcap)] at h
      injection h with h
      exact h ▸ inv_pushNew hInv hkk

theorem inv_get {r : Option V} (hInv : Inv s) (h : s.get k = some (s', r)) : Inv s' := by
  cases hk : lookupKey k s.items with
  | none =>
    rw [get_miss hk] at h
    injection h with h
    injection h with h1 h2
    exact h1 ▸ hInv
  | some w =>
    by_cases hmp : k ∈ s.protectedL
    · rw [get_hit_protected hk hmp] at h
      injection h with h
      injection h with h1 h2
      exact h1 ▸ inv_moveToFront hInv hmp
    · by_cases hmb : k ∈ s.probation
      · rw [get_hit_probation hk hmp hmb] at h
        obtain ⟨t, hp1, hf⟩ := Option.map_eq_some'.mp h
        injection hf with h1 h2
        exact h1 ▸ inv_promote hInv hmb hmp hp1
      · rw [get_hit_neither hk hmp hmb] at h
        injection h with h
        injection h with h1 h2
        exact h1 ▸ hInv

theorem inv_purge : Inv (purge s) := by
  unfold Inv purge
  simp [keys]

theorem inv_new (size : Nat) : Inv (new K V size) := by
  unfold Inv new
  simp [keys]

theorem capOk_promote (hc : CapOk s) (hp : promote s k = some s1) : CapOk s1 := by
  unfold CapOk at hc ⊢
  have hpb : (s.probation.erase k).length ≤ s.probationSize :=
    le_trans (List.Sublist.length_le (s.probation.erase_sublist k)) hc.1
  by_cases hgt : s.protectedSize < s.protectedL.length + 1
  · cases hpop : popBack (k :: s.protectedL) with
    | none => exact absurd (popBack_eq_none_iff.mp hpop) (by simp)
    | some p =>
      obtain ⟨victim, rest⟩ := p
      rw [promote_evict hgt hpop] at hp
      injection hp with hp
      subst hp
      have hlen := popBack_length hpop
      simp only [List.length_cons] at hlen
      have hc2 := hc.2
      refine ⟨hpb, ?_⟩
      show rest.length ≤ s.protectedSize
      omega
  · rw [promote_noevict (Nat.not_lt.mp hgt)] at hp
    injection hp with hp
    subst hp
    refine ⟨hpb, ?_⟩
    show (k :: s.protectedL).length ≤ s.protectedSize
    simpa using Nat.not_lt.mp hgt

theorem capOk_set (hc : CapOk s) (h : s.set k v = some s') : CapOk s' := by
  unfold CapOk at hc
  cases hk : lookupKey k s.items with
  | some w =>
    have hks : (lookupKey k s.items).isSome := by rw [hk]; rfl
    by_cases hmp : k ∈ s.protectedL
    · rw [set_hit_protected hks hmp] at h
      injection h with h
      subst h
      have hpos : 0 < s.protectedL.length := List.length_pos.mpr (by
        intro he; rw [he] at hmp; exact absurd hmp (List.not_mem_nil k))
      have hlen := List.length_erase_of_mem hmp
      have hc2 := hc.2
      refine ⟨hc.1, ?_⟩
      show (k :: s.protectedL.erase k).length ≤ s.protectedSize
      simp only [List.length_cons, hlen]
      omega
    · by_cases hmb : k ∈ s.probation
      · rw [set_hit_probation hks hmp hmb] at h
        obtain ⟨t, hp1, hf⟩ := Option.map_eq_some'.mp h
        have := capOk_promote hc hp1
        exact hf ▸ this
      · rw [set_hit_neither hks hmp hmb] at h
        injection h with h
        exact h ▸ hc
  | none =>
    by_cases hcap : s.probationSize ≤ s.probation.length
    · cases hpop : popBack s.probation with
      | none =>
        unfold set at h
        rw [if_neg (by simp [hk]), if_pos hcap] at h
        unfold evictProbation at h
        rw [hpop] at h
        exact absurd h (by simp)
      | some p =>
        obtain ⟨victim, rest⟩ := p
        rw [set_miss_evict hk hcap hpop] at h
        injection h with h
        subst h
        have hlen := popBack_length hpop
        have hc1 := hc.1
        refine ⟨?_, hc.2⟩
        show (k :: rest).length ≤ s.probationSize
        simp only [List.length_cons]
        omega
    · rw [set_miss_noevict hk (Nat.not_le.mp hcap)] at h
      injection h with h
      subst h
      have hlt := Nat.not_le.mp hcap
      refine ⟨?_, hc.2⟩
      show (k :: s.probation).length ≤ s.probationSize
      simp only [List.length_cons]
      omega

theorem capOk_get {r : Option V} (hc : CapOk s) (h : s.get k = some (s', r)) :
    CapOk s' := by
  unfold CapOk at hc ⊢
  cases hk : lookupKey k s.items with
  | none =>
    rw [get_miss hk] at h
    injection h with h
    injection h with h1 h2
    exact h1 ▸ hc
  | some w =>
    by_cases hmp : k ∈ s.protectedL
    · rw [get_hit_protected hk hmp] at h
      injection h with h
      injection h with h1 h2
      subst h1
      have hpos : 0 < s.protectedL.length := List.length_pos.mpr (by
        intro he; rw [he] at hmp; exact absurd hmp (List.not_mem_nil k))
      have hlen := List.length_erase_of_mem hmp
      have hc2 := hc.2
      refine ⟨hc.1, ?_⟩
      show (k :: s.protectedL.erase k).length ≤ s.protectedSize
      simp only [List.length_cons, hlen]
      omega
    · by_cases hmb : k ∈ s.probation
      · rw [get_hit_probation hk hmp hmb] at h
        obtain ⟨t, hp1, hf⟩ := Option.map_eq_some'.mp h
        injection hf with h1 h2
        exact h1 ▸ capOk_promote hc hp1
      · rw [get_hit_neither hk hmp hmb] at h
        injection h with h
        injection h with h1 h2
        exact h1 ▸ hc

theorem capOk_purge : CapOk (purge s) := by
  unfold CapOk purge
  simp

theorem capOk_new (size : Nat) : CapOk (new K V size) := by
  unfold CapOk new
  simp

/-- Under the structural invariant, the number of map entries equals the sum
of the two segment lengths (the Go invariant
`map.size == probation.length() + protected.length()`). -/
theorem items_length_of_inv (hInv : Inv s) :
    s.items.length = s.probation.length + s.protectedL.length := by
  obtain ⟨h1, h2, h3, h4, h5, h6, h7⟩ := hInv
  have hnd : (s.probation ++ s.protectedL).Nodup :=
    List.nodup_append.mpr ⟨h2, h3, fun a ha hb => h4 a ha hb⟩
  have hmem : ∀ a, a ∈ keys s.items ↔ a ∈ s.probation ++ s.protectedL := by
    intro a
    rw [List.mem_append]
    exact ⟨fun h => h7 a h, fun h => h.elim (h5 a) (h6 a)⟩
  have hperm : List.Perm (keys s.items) (s.probation ++ s.protectedL) :=
    (List.perm_ext_iff_of_nodup h1 hnd).mpr hmem
  have hlen := hperm.length_eq
  rw [List.length_append] at hlen
  have : (keys s.items).length = s.items.length := List.length_map _ _
  omega

end InvLemmas

section RunLemmas

variable [DecidableEq K] {s s' : SLRU K V}

theorem stepOp_preserves {op : Op K V} (hInv : Inv s) (hc : CapOk s)
    (h : stepOp s op = some s') : Inv s' ∧ CapOk s' := by
  cases op with
  | set k v => exact ⟨inv_set hInv h, capOk_set hc h⟩
  | get k =>
    obtain ⟨p, hp, hf⟩ := Option.map_eq_some'.mp h
    obtain ⟨t, r⟩ := p
    exact hf ▸ ⟨inv_get hInv hp, capOk_get hc hp⟩
  | peek k =>
    injection h with h
    exact h ▸ ⟨hInv, hc⟩
  | contains k =>
    injection h with h
    exact h ▸ ⟨hInv, hc⟩
  | purge =>
    injection h with h
    exact h ▸ ⟨inv_purge, capOk_purge⟩

theorem run_preserves {ops : List (Op K V)} (hInv : Inv s) (hc : CapOk s)
    (h : run s ops = some s') : Inv s' ∧ CapOk s' := by
  induction ops generalizing s with
  | nil =>
    unfold run at h
    injection h with h
    exact h ▸ ⟨hInv, hc⟩
  | cons op ops ih =>
    unfold run at h
    cases hst : stepOp s op with
    | none => rw [hst] at h; exact absurd h (by simp)
    | some s1 =>
      rw [hst] at h
      obtain ⟨hi1, hc1⟩ := stepOp_preserves hInv hc hst
      exact ih hi1 hc1 h

end RunLemmas

section FieldLemmas

variable [DecidableEq K] {s s1 s' : SLRU K V} {k : K} {v : V}

theorem promote_fields (hp : s.promote k = some s1) :
    s1.probationSize = s.probationSize ∧ s1.protectedSize = s.protectedSize := by
  by_cases hgt : s.protectedSize < s.protectedL.length + 1
  · cases hpop : popBack (k :: s.protectedL) with
    | none => exact absurd (popBack_eq_none_iff.mp hpop) (by simp)
    | some p =>
      obtain ⟨victim, rest⟩ := p
      rw [promote_evict hgt hpop] at hp
      injection hp with hp
      subst hp
      exact ⟨rfl, rfl⟩
  · rw [promote_noevict (Nat.not_lt.mp hgt)] at hp
    injection hp with hp
    subst hp
    exact ⟨rfl, rfl⟩

theorem set_fields (h : s.set k v = some s') :
    s'.probationSize = s.probationSize ∧ s'.protectedSize = s.protectedSize := by
  cases hk : lookupKey k s.items with
  | some w =>
    have hks : (lookupKey k s.items).isSome := by rw [hk]; rfl
    by_cases hmp : k ∈ s.protectedL
    · rw [set_hit_protected hks hmp] at h
      injection h with h
      subst h
      exact ⟨rfl, rfl⟩
    · by_cases hmb : k ∈ s.probation
      · rw [set_hit_probation hks hmp hmb] at h
        obtain ⟨t, hp1, hf⟩ := Option.map_eq_some'.mp h
        obtain ⟨h1, h2⟩ := promote_fields hp1
        subst hf
        exact ⟨h1, h2⟩
      · rw [set_hit_neither hks hmp hmb] at h
        injection h with h
        subst h
        exact ⟨rfl, rfl⟩
  | none =>
    by_cases hcap : s.probationSize ≤ s.probation.length
    · cases hpop : popBack s.probation with
      | none =>
        unfold set at h
        rw [if_neg (by simp [hk]), if_pos hcap] at h
        unfold evictProbation at h
        rw [hpop] at h
        exact absurd h (by simp)
      | some p =>
        obtain ⟨victim, rest⟩ := p
        rw [set_miss_evict hk hcap hpop] at h
        injection h with h
        subst h
        exact ⟨rfl, rfl⟩
    · rw [set_miss_noevict hk (Nat.not_le.mp hcap)] at h
      injection h with h
      subst h
      exact ⟨rfl, rfl⟩

theorem get_fields {r : Option V} (h : s.get k = some (s', r)) :
    s'.probationSize = s.probationSize ∧ s'.protectedSize = s.protectedSize := by
  cases hk : lookupKey k s.items with
  | none =>
    rw [get_miss hk] at h
    injection h with h
    injection h with h1 h2
    subst h1
    exact ⟨rfl, rfl⟩
  | some w =>
    by_cases hmp : k ∈ s.protectedL
    · rw [get_hit_protected hk hmp] at h
      injection h with h
      injection h with h1 h2
      subst h1
      exact ⟨rfl, rfl⟩
    · by_cases hmb : k ∈ s.probation
      · rw [get_hit_probation hk hmp hmb] at h
        obtain ⟨t, hp1, hf⟩ := Option.map_eq_some'.mp h
        injection hf with h1 h2
        subst h1
        exact promote_fields hp1
      · rw [get_hit_neither hk hmp hmb] at h
        injection h with h
        injection h with h1 h2
        subst h1
        exact ⟨rfl, rfl⟩

theorem stepOp_fields {op : Op K V} (h : stepOp s op = some s') :
    s'.probationSize = s.probationSize ∧ s'.protectedSize = s.protectedSize := by
  cases op with
  | set k v => exact set_fields h
  | get k =>
    obtain ⟨p, hp, hf⟩ := Option.map_eq_some'.mp h
    obtain ⟨t, r⟩ := p
    exact hf ▸ get_fields hp
  | peek k =>
    injection h with h
    subst h
    exact ⟨rfl, rfl⟩
  | contains k =>
    injection h with h
    subst h
    exact ⟨rfl, rfl⟩
  | purge =>
    injection h with h
    subst h
    exact ⟨rfl, rfl⟩

theorem run_fields {ops : List (Op K V)} (h : run s ops = some s') :
    s'.probationSize = s.probationSize ∧ s'.protectedSize = s.protectedSize := by
  induction ops generalizing s with
  | nil =>
    unfold run at h
    injection h with h
    subst h
    exact ⟨rfl, rfl⟩
  | cons op ops ih =>
    unfold run at h
    cases hst : stepOp s op with
    | none => rw [hst] at h; exact absurd h (by simp)
    | some s2 =>
      rw [hst] at h
      obtain ⟨h1, h2⟩ := stepOp_fields hst
      obtain ⟨h3, h4⟩ := ih h
      exact ⟨h3.trans h1, h4.trans h2⟩

end FieldLemmas

section TotalityLemmas

variable [DecidableEq K] {s : SLRU K V} {k : K} {v : V}

theorem set_isSome (hp : 1 ≤ s.probationSize) (k : K) (v : V) :
    (s.set k v).isSome := by
  cases hk : lookupKey k s.items with
  | some w =>
    have hks : (lookupKey k s.items).isSome := by rw [hk]; rfl
    by_cases hmp : k ∈ s.protectedL
    · rw [set_hit_protected hks hmp]; rfl
    · by_cases hmb : k ∈ s.probation
      · rw [set_hit_probation hks hmp hmb]
        obtain ⟨t, ht⟩ := Option.isSome_iff_exists.mp (promote_isSome s k)
        rw [ht]
        rfl
      · rw [set_hit_neither hks hmp hmb]; rfl
  | none =>
    by_cases hcap : s.probationSize ≤ s.probation.length
    · have hne : s.probation ≠ [] := by
        intro he
        rw [he] at hcap
        simp at hcap
        omega
      obtain ⟨p, hpop⟩ := Option.isSome_iff_exists.mp (popBack_isSome_of_ne_nil hne)
      obtain ⟨victim, rest⟩ := p
      rw [set_miss_evict hk hcap hpop]
      rfl
    · rw [set_miss_noevict hk (Nat.not_le.mp hcap)]; rfl

theorem get_isSome (s : SLRU K V) (k : K) : (s.get k).isSome := by
  cases hk : lookupKey k s.items with
  | none => rw [get_miss hk]; rfl
  | some w =>
    by_cases hmp : k ∈ s.protectedL
    · rw [get_hit_protected hk hmp]; rfl
    · by_cases hmb : k ∈ s.probation
      · rw [get_hit_probation hk hmp hmb]
        obtain ⟨t, ht⟩ := Option.isSome_iff_exists.mp (promote_isSome s k)
        rw [ht]
        rfl
      · rw [get_hit_neither hk hmp hmb]; rfl

end TotalityLemmas

section RoundTrip

variable [DecidableEq K] {s : SLRU K V} {k : K} {v : V}

theorem lookupKey_cons_self (k : K) (v : V) (l : List (K × V)) :
    lookupKey k ((k, v) :: l) = some v := by
  rw [lookupKey, if_pos rfl]

/-- A hit on a key sitting in probation returns its value (promotion itself
always succeeds because the protected list just received the key). -/
theorem get_after_push {u : SLRU K V} {k : K} {v : V}
    (hlk : lookupKey k u.items = some v)
    (hknp : k ∉ u.protectedL) (hmb : k ∈ u.probation) :
    ∃ s2, u.get k = some (s2, some v) := by
  rw [get_hit_probation hlk hknp hmb]
  obtain ⟨t, ht⟩ := Option.isSome_iff_exists.mp (promote_isSome u k)
  rw [ht]
  exact ⟨t, rfl⟩

/-- A hit on a key sitting in protected returns its value. -/
theorem get_after_protected {u : SLRU K V} {k : K} {v : V}
    (hlk : lookupKey k u.items = some v) (hmp : k ∈ u.protectedL) :
    ∃ s2, u.get k = some (s2, some v) :=
  ⟨_, get_hit_protected hlk hmp⟩

/-- After any successful `set s k v`, the key `k` is bound to `v` and sits at
the front of one of the two segment lists; a `get` right after returns `v`.
Needs both capacities positive: probation so that the miss path can evict,
protected so that a promotion cannot evict the key it just promoted. -/
theorem roundtrip_core (hInv : SLRU.Inv s) (hp : 1 ≤ s.probationSize)
    (hq : 1 ≤ s.protectedSize) (k : K) (v : V) :
    ∃ s1 s2, s.set k v = some s1 ∧ s1.get k = some (s2, some v) := by
  obtain ⟨h1, h2, h3, h4, h5, h6, h7⟩ := hInv
  cases hk : lookupKey k s.items with
  | none =>
    have hkk : k ∉ keys s.items := lookupKey_eq_none_iff.mp hk
    have hknp : k ∉ s.protectedL := fun hm => hkk (h6 k hm)
    by_cases hcap : s.probationSize ≤ s.probation.length
    · have hne : s.probation ≠ [] := by
        intro he
        rw [he] at hcap
        simp at hcap
        omega
      obtain ⟨p, hpop⟩ := Option.isSome_iff_exists.mp (popBack_isSome_of_ne_nil hne)
      obtain ⟨victim, rest⟩ := p
      obtain ⟨s2, hget⟩ := get_after_push
        (u := ⟨s.size, (k, v) :: eraseKey victim s.items, k :: rest, s.protectedL,
          s.probationSize, s.protectedSize⟩)
        (lookupKey_cons_self k v _) hknp (List.mem_cons_self k rest)
      exact ⟨_, s2, set_miss_evict hk hcap hpop, hget⟩
    · obtain ⟨s2, hget⟩ := get_after_push
        (u := ⟨s.size, (k, v) :: s.items, k :: s.probation, s.protectedL,
          s.probationSize, s.protectedSize⟩)
        (lookupKey_cons_self k v _) hknp (List.mem_cons_self k s.probation)
      exact ⟨_, s2, set_miss_noevict hk (Nat.not_le.mp hcap), hget⟩
  | some w =>
    have hks : (lookupKey k s.items).isSome := by rw [hk]; rfl
    have hkm : k ∈ keys s.items := mem_keys_of_lookupKey_eq_some hk
    by_cases hmp : k ∈ s.protectedL
    · obtain ⟨s2, hget⟩ := get_after_protected
        (u := ⟨s.size, updateValue k v s.items, s.probation, k :: s.protectedL.erase k,
          s.probationSize, s.protectedSize⟩)
        (lookupKey_updateValue_self hkm) (List.mem_cons_self k _)
      exact ⟨_, s2, set_hit_protected hks hmp, hget⟩
    · by_cases hmb : k ∈ s.probation
      · by_cases hgt : s.protectedSize < s.protectedL.length + 1
        · have hne : s.protectedL ≠ [] := by
            intro he
            rw [he] at hgt
            simp at hgt
            omega
          obtain ⟨p, hpop⟩ :=
            Option.isSome_iff_exists.mp (popBack_isSome_of_ne_nil
              (l := k :: s.protectedL) (by simp))
          obtain ⟨victim, rest⟩ := p
          obtain ⟨tail, hrest, htail⟩ := popBack_cons_head hne hpop
          have hvic : victim ∈ s.protectedL := htail ▸ List.mem_append_right tail
            (List.mem_singleton_self victim)
          have hvk : victim ≠ k := fun he => hmp (he ▸ hvic)
          obtain ⟨s2, hget⟩ := get_after_protected
            (u := ⟨s.size, updateValue k v (eraseKey victim s.items),
              s.probation.erase k, rest, s.probationSize, s.protectedSize⟩)
            (lookupKey_updateValue_self
              (mem_keys_eraseKey.mpr ⟨hkm, fun he => hvk he.symm⟩))
            (by rw [hrest]; exact List.mem_cons_self k tail)
          refine ⟨_, s2, ?_, hget⟩
          rw [set_hit_probation hks hmp hmb, promote_evict hgt hpop]
          rfl
        · obtain ⟨s2, hget⟩ := get_after_protected
            (u := ⟨s.size, updateValue k v s.items, s.probation.erase k,
              k :: s.protectedL, s.probationSize, s.protectedSize⟩)
            (lookupKey_updateValue_self hkm) (List.mem_cons_self k _)
          refine ⟨_, s2, ?_, hget⟩
          rw [set_hit_probation hks hmp hmb, promote_noevict (Nat.not_lt.mp hgt)]
          rfl
      · exact absurd (h7 k hkm) (by simp [hmp, hmb])

/-- A `get` of a key sitting at the front of probation promotes it into
protected (it survives any protected-overflow eviction, which removes the
back, provided the protected capacity is at least 1) and removes it from
probation. -/
theorem promote_get_positions {u : SLRU K V} {k : K} {v : V}
    (hInv1 : SLRU.Inv u) (hq : 1 ≤ u.protectedSize)
    (hlk : lookupKey k u.items = some v)
    (hknp : k ∉ u.protectedL) (hhd : u.probation.head? = some k) :
    ∃ s2, u.get k = some (s2, some v) ∧ k ∈ s2.protectedL ∧ k ∉ s2.probation := by
  obtain ⟨h1, h2, h3, h4, h5, h6, h7⟩ := hInv1
  cases hpb : u.probation with
  | nil => rw [hpb] at hhd; exact absurd hhd (by simp)
  | cons j X =>
    rw [hpb] at hhd
    have hjk : j = k := by simpa using hhd
    subst hjk
    have hmb : j ∈ u.probation := by rw [hpb]; exact List.mem_cons_self ..
    have hkX : j ∉ X := by
      rw [hpb] at h2
      exact (List.nodup_cons.mp h2).1
    by_cases hgt : u.protectedSize < u.protectedL.length + 1
    · have hne : u.protectedL ≠ [] := by
        intro he
        rw [he] at hgt
        simp at hgt
        omega
      obtain ⟨p, hpop⟩ := Option.isSome_iff_exists.mp
        (popBack_isSome_of_ne_nil (l := j :: u.protectedL) (by simp))
      obtain ⟨victim, rest⟩ := p
      obtain ⟨tail, hrest, _⟩ := popBack_cons_head hne hpop
      refine ⟨⟨u.size, eraseKey victim u.items, u.probation.erase j, rest,
        u.probationSize, u.protectedSize⟩, ?_, ?_, ?_⟩
      · rw [get_hit_probation hlk hknp hmb, promote_evict hgt hpop]
        rfl
      · show j ∈ rest
        rw [hrest]
        exact List.mem_cons_self ..
      · show j ∉ u.probation.erase j
        rw [hpb, List.erase_cons_head]
        exact hkX
    · refine ⟨⟨u.size, u.items, u.probation.erase j, j :: u.protectedL,
        u.probationSize, u.protectedSize⟩, ?_, ?_, ?_⟩
      · rw [get_hit_probation hlk hknp hmb, promote_noevict (Nat.not_lt.mp hgt)]
        rfl
      · show j ∈ j :: u.protectedL
        exact List.mem_cons_self ..
      · show j ∉ u.probation.erase j
        rw [hpb, List.erase_cons_head]
        exact hkX

/-- A `get` of a key already in protected only moves it to the front of
protected: the map and probation are untouched and the length is unchanged. -/
theorem get_protected_refresh {t : SLRU K V} {k : K} (hInvT : SLRU.Inv t)
    (hmem : k ∈ t.protectedL) :
    ∃ t' w, t.get k = some (t', w) ∧ t'.items = t.items ∧
      t'.probation = t.probation ∧ t'.protectedL = k :: t.protectedL.erase k ∧
      SLRU.len t' = SLRU.len t := by
  obtain ⟨h1, h2, h3, h4, h5, h6, h7⟩ := hInvT
  obtain ⟨w, hw⟩ := Option.isSome_iff_exists.mp (lookupKey_isSome_iff.mpr (h6 k hmem))
  refine ⟨_, w, get_hit_protected hw hmem, rfl, rfl, rfl, ?_⟩
  show t.probation.length + (k :: t.protectedL.erase k).length =
    t.probation.length + t.protectedL.length
  have hlen := List.length_erase_of_mem hmem
  have hpos : 0 < t.protectedL.length := List.length_pos.mpr
    (fun he => by rw [he] at hmem; exact absurd hmem (List.not_mem_nil k))
  simp only [List.length_cons, hlen]
  omega

end RoundTrip

end SLRU

section FloatLemmas

theorem bitlenAux_zero : ∀ fuel : Nat, bitlenAux fuel 0 = 0
  | 0 => rfl
  | _ + 1 => by rw [bitlenAux, if_pos rfl]

theorem bitlenAux_le : ∀ {fuel k n : Nat}, n < 2 ^ k → k ≤ fuel → bitlenAux fuel n ≤ k
  | 0, k, _, _, _ => Nat.zero_le k
  | fuel + 1, k, n, hn, hk => by
    rw [bitlenAux]
    by_cases h0 : n = 0
    · rw [if_pos h0]; exact Nat.zero_le k
    · rw [if_neg h0]
      have hk1 : 1 ≤ k := by
        rcases Nat.eq_zero_or_pos k with hz | hp
        · subst hz; rw [pow_zero] at hn; omega
        · exact hp
      have h2 : 2 * 2 ^ (k - 1) = 2 ^ k := by
        rw [← pow_succ']
        congr 1
        omega
      have hlt : n / 2 < 2 ^ (k - 1) := by omega
      have hrec := @bitlenAux_le fuel (k - 1) (n / 2) hlt (by omega)
      omega

theorem bitlenAux_upper : ∀ {fuel n : Nat}, n < 2 ^ fuel → n < 2 ^ bitlenAux fuel n
  | 0, n, hn => hn
  | fuel + 1, n, hn => by
    rw [bitlenAux]
    by_cases h0 : n = 0
    · rw [if_pos h0, h0, pow_zero]; omega
    · rw [if_neg h0]
      have h2 : 2 * 2 ^ fuel = 2 ^ (fuel + 1) := (pow_succ' 2 fuel).symm
      have hlt : n / 2 < 2 ^ fuel := by omega
      have hrec := @bitlenAux_upper fuel (n / 2) hlt
      have h3 : 2 * 2 ^ bitlenAux fuel (n / 2) = 2 ^ (bitlenAux fuel (n / 2) + 1) :=
        (pow_succ' 2 _).symm
      omega

theorem bitlenAux_lower : ∀ {fuel n : Nat}, 0 < n → n < 2 ^ fuel →
    2 ^ (bitlenAux fuel n - 1) ≤ n
  | 0, n, hpos, hlt => by rw [pow_zero] at hlt; omega
  | fuel + 1, n, hpos, hlt => by
    rw [bitlenAux, if_neg (Nat.pos_iff_ne_zero.mp hpos)]
    by_cases h1 : n / 2 = 0
    · rw [h1, bitlenAux_zero]
      simpa using hpos
    · have hpos2 : 0 < n / 2 := Nat.pos_of_ne_zero h1
      have h2 : 2 * 2 ^ fuel = 2 ^ (fuel + 1) := (pow_succ' 2 fuel).symm
      have hlt2 : n / 2 < 2 ^ fuel := by omega
      have hrec := bitlenAux_lower hpos2 hlt2
      have hposaux : 1 ≤ bitlenAux fuel (n / 2) := by
        cases fuel with
        | zero => rw [pow_zero] at hlt2; omega
        | succ f => rw [bitlenAux, if_neg h1]; omega
      rw [Nat.add_sub_cancel]
      have h3 : 2 ^ bitlenAux fuel (n / 2) = 2 * 2 ^ (bitlenAux fuel (n / 2) - 1) := by
        rw [← pow_succ']
        congr 1
        omega
      omega

theorem bitlen_le {n k : Nat} (h : n < 2 ^ k) (hk : k ≤ 128) : bitlen n ≤ k :=
  bitlenAux_le h hk

theorem bitlen_lower {n : Nat} (hpos : 0 < n) (h : n < 2 ^ 128) :
    2 ^ (bitlen n - 1) ≤ n :=
  bitlenAux_lower hpos h

theorem bitlen_upper {n : Nat} (h : n < 2 ^ 128) : n < 2 ^ bitlen n :=
  bitlenAux_upper h

theorem rne_zero (a : Nat) : rne a 0 = a := by
  rw [rne, if_pos rfl]

theorem rne_floor_le (a sh : Nat) : a / 2 ^ sh * 2 ^ sh ≤ rne a sh := by
  rw [rne]
  split_ifs with h1 h2 h3 h4
  · subst h1; simp
  · exact Nat.le_refl _
  · exact Nat.mul_le_mul_right _ (Nat.le_succ _)
  · exact Nat.le_refl _
  · exact Nat.mul_le_mul_right _ (Nat.le_succ _)

theorem rne_le_ceil (a sh : Nat) : rne a sh ≤ a / 2 ^ sh * 2 ^ sh + 2 ^ sh := by
  rw [rne]
  split_ifs with h1 h2 h3 h4
  · subst h1; simp
  · exact Nat.le_add_right _ _
  · rw [Nat.succ_mul]
  · exact Nat.le_add_right _ _
  · rw [Nat.succ_mul]

theorem rne_of_mod_eq_zero {a sh : Nat} (h : a % 2 ^ sh = 0) : rne a sh = a := by
  rw [rne]
  by_cases h1 : sh = 0
  · rw [if_pos h1]
  · rw [if_neg h1]
    have h2 : 2 ≤ 2 ^ sh := by
      calc (2:Nat) = 2 ^ 1 := (pow_one 2).symm
        _ ≤ 2 ^ sh := Nat.pow_le_pow_right (by omega) (by omega)
    have hm : a % 2 ^ sh < 2 ^ sh / 2 := by omega
    rw [if_pos hm]
    exact Nat.div_mul_cancel (Nat.dvd_of_mod_eq_zero h)

theorem le_floor_mul {c m a : Nat} (hc : 0 < c) (hdvd : c ∣ m) (hle : m ≤ a) :
    m ≤ a / c * c := by
  obtain ⟨t, rfl⟩ := hdvd
  have ht : t ≤ a / c := (Nat.le_div_iff_mul_le hc).mpr (by rw [Nat.mul_comm]; exact hle)
  calc c * t ≤ c * (a / c) := Nat.mul_le_mul_left c ht
    _ = a / c * c := Nat.mul_comm ..

theorem floatRound53_eq_self {a : Nat} (ha : a < 2 ^ 53) : floatRound53 a = a := by
  unfold floatRound53
  have hb : bitlen a ≤ 53 := bitlen_le ha (by norm_num)
  have h0 : bitlen a - 53 = 0 := by omega
  rw [h0, rne_zero]

/-- The truncated float64 product computed by `New` agrees with `size / 5` for
every size up to `2 ^ 51` (so for every realistic cache size). -/
theorem goProbationCap_eq_div5 {n : Nat} (hn1 : 0 < n) (hn : n ≤ 2 ^ 51) :
    goProbationCap n = n / 5 := by
  have e51 : (2:Nat) ^ 51 = 2251799813685248 := by norm_num
  have e53 : (2:Nat) ^ 53 = 9007199254740992 := by norm_num
  unfold goProbationCap
  rw [floatRound53_eq_self (a := n) (by omega)]
  set a := 3602879701896397 * n with ha
  have haU : a < 2 ^ 103 := by
    have h1 : a ≤ 3602879701896397 * 2 ^ 51 := Nat.mul_le_mul_left _ hn
    have h2 : 3602879701896397 * 2 ^ 51 < 2 ^ 103 := by norm_num
    omega
  have hbl : bitlen a ≤ 103 := bitlen_le haU (by norm_num)
  unfold floatRound53
  set sh := bitlen a - 53 with hsh
  have hshle : sh ≤ 50 := by omega
  have h2sh : 2 ^ sh ≤ 2 ^ 50 := Nat.pow_le_pow_right (by norm_num) hshle
  have e50 : (2:Nat) ^ 50 = 1125899906842624 := by norm_num
  have e54 : (2:Nat) ^ 54 = 18014398509481984 := by norm_num
  have hqB : n / 5 * 2 ^ 54 ≤ a := by rw [e54]; omega
  have hfloor : n / 5 * 2 ^ 54 ≤ a / 2 ^ sh * 2 ^ sh :=
    le_floor_mul (pow_pos (by norm_num) sh)
      (Dvd.dvd.mul_left (pow_dvd_pow 2 (by omega)) (n / 5)) hqB
  have hR1 : n / 5 * 2 ^ 54 ≤ rne a sh := le_trans hfloor (rne_floor_le a sh)
  have hceil := rne_le_ceil a sh
  have hflle : a / 2 ^ sh * 2 ^ sh ≤ a := Nat.div_mul_le_self a _
  have hup : rne a sh < (n / 5 + 1) * 2 ^ 54 := by
    rw [e54]
    rw [e54] at hR1
    rw [e50] at h2sh
    rw [e51] at hn
    omega
  rw [e54] at hR1 hup ⊢
  omega

/-- For every cache size the Go capacity computation yields at least one
probation slot as soon as `size ≥ 5`. -/
theorem goProbationCap_pos {n : Nat} (h5 : 5 ≤ n) (hn : n < 2 ^ 63) :
    1 ≤ goProbationCap n := by
  have e52 : (2:Nat) ^ 52 = 4503599627370496 := by norm_num
  have e54 : (2:Nat) ^ 54 = 18014398509481984 := by norm_num
  have e63 : (2:Nat) ^ 63 = 9223372036854775808 := by norm_num
  unfold goProbationCap
  set n1 := floatRound53 n with hn1
  have hnpos : 0 < n := by omega
  have hnlt : n < 2 ^ 128 := by
    have : (2:Nat) ^ 63 < 2 ^ 128 := by norm_num
    omega
  have hn1bounds : n1 = n ∨
      (2 ^ (bitlen n - 53) * 2 ^ 52 ≤ n ∧ n + 1 - 2 ^ (bitlen n - 53) ≤ n1 ∧
        n1 ≤ n + 2 ^ (bitlen n - 53)) := by
    by_cases hsm : bitlen n ≤ 53
    · left
      rw [hn1]
      unfold floatRound53
      rw [show bitlen n - 53 = 0 by omega, rne_zero]
    · right
      have hlow := bitlen_lower hnpos hnlt
      have hsplit : 2 ^ (bitlen n - 53) * 2 ^ 52 = 2 ^ (bitlen n - 1) := by
        rw [← pow_add]
        congr 1
        omega
      refine ⟨hsplit ▸ hlow, ?_, ?_⟩
      · have hmod := Nat.div_add_mod n (2 ^ (bitlen n - 53))
        have hmlt : n % 2 ^ (bitlen n - 53) < 2 ^ (bitlen n - 53) :=
          Nat.mod_lt _ (pow_pos (by norm_num) _)
        have hfl := rne_floor_le n (bitlen n - 53)
        have hcm : n / 2 ^ (bitlen n - 53) * 2 ^ (bitlen n - 53) =
            2 ^ (bitlen n - 53) * (n / 2 ^ (bitlen n - 53)) := Nat.mul_comm ..
        rw [hn1]
        unfold floatRound53
        omega
      · have hfle : n / 2 ^ (bitlen n - 53) * 2 ^ (bitlen n - 53) ≤ n :=
          Nat.div_mul_le_self n _
        have hce := rne_le_ceil n (bitlen n - 53)
        rw [hn1]
        unfold floatRound53
        omega
  have hone : 1 ≤ 2 ^ (bitlen n - 53) := Nat.one_le_two_pow
  have hn15 : 5 ≤ n1 := by
    rcases hn1bounds with h | ⟨hA, hB, hC⟩
    · omega
    · rw [e52] at hA
      omega
  have hn1U : n1 ≤ 2 ^ 63 + 2 ^ 11 := by
    rcases hn1bounds with h | ⟨hA, hB, hC⟩
    · omega
    · rw [e52] at hA
      have h11 : 2 ^ (bitlen n - 53) ≤ 2 ^ 11 := by
        have : (2:Nat) ^ 11 = 2048 := by norm_num
        rw [e63] at hn
        omega
      have : (2:Nat) ^ 11 = 2048 := by norm_num
      rw [e63]
      omega
  set a := 3602879701896397 * n1 with ha
  have ha5 : 2 ^ 54 + 1 ≤ a := by rw [e54]; omega
  unfold floatRound53
  set sh : Nat := bitlen a - 53 with hsh
  by_cases hsmall : a < 2 ^ 107
  · have hble : bitlen a ≤ 107 := bitlen_le hsmall (by norm_num)
    have hshle : sh ≤ 54 := by omega
    have hfl : 2 ^ 54 ≤ a / 2 ^ sh * 2 ^ sh :=
      le_floor_mul (pow_pos (by norm_num) sh) (pow_dvd_pow 2 (by omega)) (by omega)
    have hR := le_trans hfl (rne_floor_le a sh)
    rw [e54] at hR ⊢
    omega
  · have haU : a < 2 ^ 116 := by
      have h1 : a ≤ 3602879701896397 * (2 ^ 63 + 2 ^ 11) := Nat.mul_le_mul_left _ hn1U
      have h2 : 3602879701896397 * ((2:Nat) ^ 63 + 2 ^ 11) < 2 ^ 116 := by norm_num
      omega
    have hble : bitlen a ≤ 116 := bitlen_le haU (by norm_num)
    have hshle : sh ≤ 63 := by omega
    have h2sh : 2 ^ sh ≤ 2 ^ 63 := Nat.pow_le_pow_right (by norm_num) hshle
    have hmod := Nat.div_add_mod a (2 ^ sh)
    have hmlt : a % 2 ^ sh < 2 ^ sh := Nat.mod_lt _ (pow_pos (by norm_num) _)
    have hcm : a / 2 ^ sh * 2 ^ sh = 2 ^ sh * (a / 2 ^ sh) := Nat.mul_comm ..
    have hR := rne_floor_le a sh
    have e107 : (2:Nat) ^ 107 = 162259276829213363391578010288128 := by norm_num
    rw [e54]
    rw [e63] at h2sh
    rw [e107] at hsmall
    omega

/-- For every cache size `5 ≤ size < 2 ^ 63` the probation capacity computed
by `New` is strictly below `size`, so the protected capacity is at least 1. -/
theorem goProbationCap_lt_self {n : Nat} (h5 : 5 ≤ n) (hn : n < 2 ^ 63) :
    goProbationCap n < n := by
  by_cases hsm : n ≤ 2 ^ 51
  · rw [goProbationCap_eq_div5 (by omega) hsm]
    omega
  · have e51 : (2:Nat) ^ 51 = 2251799813685248 := by norm_num
    have e52 : (2:Nat) ^ 52 = 4503599627370496 := by norm_num
    have e54 : (2:Nat) ^ 54 = 18014398509481984 := by norm_num
    have e63 : (2:Nat) ^ 63 = 9223372036854775808 := by norm_num
    unfold goProbationCap
    set n1 := floatRound53 n with hn1
    have hnpos : 0 < n := by omega
    have hnlt : n < 2 ^ 128 := by
      have : (2:Nat) ^ 63 < 2 ^ 128 := by norm_num
      omega
    have hbign : bitlen n ≥ 52 := by
      have hup := bitlen_upper hnlt
      by_contra hc
      push_neg at hc
      have : (2:Nat) ^ bitlen n ≤ 2 ^ 51 := Nat.pow_le_pow_right (by norm_num) (by omega)
      omega
    have hlow := bitlen_lower hnpos hnlt
    have hn1bounds : n1 = n ∨
        (2 ^ (bitlen n - 53) * 2 ^ 52 ≤ n ∧ n1 ≤ n + 2 ^ (bitlen n - 53)) := by
      by_cases hsm2 : bitlen n ≤ 53
      · left
        rw [hn1]
        unfold floatRound53
        rw [show bitlen n - 53 = 0 by omega, rne_zero]
      · right
        have hsplit : 2 ^ (bitlen n - 53) * 2 ^ 52 = 2 ^ (bitlen n - 1) := by
          rw [← pow_add]
          congr 1
          omega
        refine ⟨hsplit ▸ hlow, ?_⟩
        have hfle : n / 2 ^ (bitlen n - 53) * 2 ^ (bitlen n - 53) ≤ n :=
          Nat.div_mul_le_self n _
        have hce := rne_le_ceil n (bitlen n - 53)
        rw [hn1]
        unfold floatRound53
        omega
    have hone : 1 ≤ 2 ^ (bitlen n - 53) := Nat.one_le_two_pow
    have hn1U : n1 ≤ n + 2 ^ 11 := by
      rcases hn1bounds with h | ⟨hA, hC⟩
      · omega
      · rw [e52] at hA
        have h11 : (2:Nat) ^ 11 = 2048 := by norm_num
        rw [e63] at hn
        omega
    have hn1L : n / 2 ≤ n1 := by
      rcases hn1bounds with h | ⟨hA, hC⟩
      · omega
      · have hB2 : n + 1 - 2 ^ (bitlen n - 53) ≤ n1 := by
          have hmod := Nat.div_add_mod n (2 ^ (bitlen n - 53))
          have hmlt : n % 2 ^ (bitlen n - 53) < 2 ^ (bitlen n - 53) :=
            Nat.mod_lt _ (pow_pos (by norm_num) _)
          have hfl := rne_floor_le n (bitlen n - 53)
          have hcm : n / 2 ^ (bitlen n - 53) * 2 ^ (bitlen n - 53) =
              2 ^ (bitlen n - 53) * (n / 2 ^ (bitlen n - 53)) := Nat.mul_comm ..
          rw [hn1]
          unfold floatRound53
          omega
        rw [e52] at hA
        omega
    set a := 3602879701896397 * n1 with ha
    have haL : 2 ^ 101 ≤ a := by
      have hnn : 2 ^ 50 ≤ n1 := by
        have : (2:Nat) ^ 50 = 1125899906842624 := by norm_num
        rw [e51] at hsm
        omega
      have h1 : 3602879701896397 * 2 ^ 50 ≤ a := by
        rw [ha]
        exact Nat.mul_le_mul_left _ hnn
      have h2 : (2:Nat) ^ 101 ≤ 3602879701896397 * 2 ^ 50 := by norm_num
      omega
    have haU : a < 2 ^ 116 := by
      have h1 : a ≤ 3602879701896397 * (n + 2 ^ 11) := Nat.mul_le_mul_left _ hn1U
      have h2 : 3602879701896397 * ((2:Nat) ^ 63 + 2 ^ 11) < 2 ^ 116 := by norm_num
      have h3 : 3602879701896397 * (n + 2 ^ 11) ≤
          3602879701896397 * (2 ^ 63 + 2 ^ 11) :=
        Nat.mul_le_mul_left _ (by omega)
      omega
    unfold floatRound53
    set sh : Nat := bitlen a - 53 with hsh
    have hble : bitlen a ≤ 116 := bitlen_le haU (by norm_num)
    have hblow : 102 ≤ bitlen a := by
      have hup := bitlen_upper (lt_trans haU (by norm_num))
      by_contra hc
      push_neg at hc
      have : (2:Nat) ^ bitlen a ≤ 2 ^ 101 := Nat.pow_le_pow_right (by norm_num) (by omega)
      omega
    have hsplit : 2 ^ sh * 2 ^ 52 = 2 ^ (bitlen a - 1) := by
      rw [← pow_add]
      congr 1
      omega
    have halow := bitlen_lower (by omega) (lt_trans haU (by norm_num))
    have hSa : 2 ^ sh * 2 ^ 52 ≤ a := hsplit ▸ halow
    have hfle : a / 2 ^ sh * 2 ^ sh ≤ a := Nat.div_mul_le_self a _
    have hce := rne_le_ceil a sh
    have hgoal : rne a sh < n * 2 ^ 54 := by
      have h11 : (2:Nat) ^ 11 = 2048 := by norm_num
      rw [e52] at hSa
      rw [e54]
      rw [e51] at hsm
      have ha2 : a ≤ 3602879701896397 * n + 3602879701896397 * 2 ^ 11 := by
        have h1 : a ≤ 3602879701896397 * (n + 2 ^ 11) := Nat.mul_le_mul_left _ hn1U
        have h2 : 3602879701896397 * (n + (2:Nat) ^ 11) =
            3602879701896397 * n + 3602879701896397 * 2 ^ 11 := by ring
        omega
      rw [h11] at ha2
      omega
    rw [e54] at hgoal
    rw [e54]
    omega

end FloatLemmas

/-- Claim C1, counterexample: on a cache of size 1 (where `probationCapacity`
is 0) the very first `Set` of a new key already fails — `evict` reads `back()`
of the empty probation list — so `Set(k, v)` followed by `Get(k)` does not
return `(v, true)`; the claim is false for sizes 1 through 4. -/
theorem C1_size_one_fails :
    ((SLRU.set (new Nat Nat 1) 0 0).bind fun s1 => (SLRU.get s1 0).map Prod.snd) ≠
      some (some 0) := by
  decide

/-- Claim C1 (amended): for every cache created with `5 ≤ size < 2 ^ 63`
(so that both segment capacities are at least 1) and every reachable state of
it, `Set(k, v)` followed immediately by `Get(k)` returns `(v, true)`, whether
`k` was absent or already present in either segment. -/
theorem C1_set_get_roundtrip (K V : Type) [DecidableEq K] (size : Nat)
    (h5 : 5 ≤ size) (h63 : size < 2 ^ 63) (ops : List (Op K V)) (s : SLRU K V)
    (hrun : run (new K V size) ops = some s) (k : K) (v : V) :
    ∃ s1 s2, SLRU.set s k v = some s1 ∧ SLRU.get s1 k = some (s2, some v) := by
  obtain ⟨hInv, _⟩ := SLRU.run_preserves (SLRU.inv_new size) (SLRU.capOk_new size) hrun
  obtain ⟨hf1, hf2⟩ := SLRU.run_fields hrun
  have hp : 1 ≤ s.probationSize := by
    rw [hf1]
    show 1 ≤ goProbationCap size
    exact goProbationCap_pos h5 h63
  have hq : 1 ≤ s.protectedSize := by
    rw [hf2]
    show 1 ≤ size - goProbationCap size
    have := goProbationCap_lt_self h5 h63
    omega
  exact SLRU.roundtrip_core hInv hp hq k v

theorem C1_witness :
    ∃ s1 s2, SLRU.set (new Nat Nat 10) 7 42 = some s1 ∧
      SLRU.get s1 7 = some (s2, some 42) :=
  C1_set_get_roundtrip Nat Nat 10 (by norm_num) (by norm_num) [] (new Nat Nat 10)
    rfl 7 42

/-- Claim C2, counterexample: with size 1 the fresh cache has
`probationCapacity = 0`, so `Set` of a new key calls `evict` on the empty
probation list; in the embedding that failed `back()` read is exactly the
`none` result. -/
theorem C2_size_one_empty_evict : SLRU.set (new Nat Nat 1) 0 0 = none := by
  decide

/-- Claim C2 (amended): on every cache state whose probation capacity is at
least 1 (as `New` produces for `5 ≤ size < 2 ^ 63`), every `evict` call made
by `Set` or `Get` is on a non-empty list: neither operation ever fails.
`Get` in fact never fails on any state, because the only list it can evict
from has just received a pushed front element. -/
theorem C2_no_evict_on_empty (K V : Type) [DecidableEq K] (s : SLRU K V)
    (k : K) (v : V) (hp : 1 ≤ s.probationSize) :
    SLRU.set s k v ≠ none ∧ SLRU.get s k ≠ none := by
  constructor
  · intro h
    have hs := SLRU.set_isSome hp k v
    rw [h] at hs
    simp at hs
  · intro h
    have hs := SLRU.get_isSome s k
    rw [h] at hs
    simp at hs

theorem C2_witness :
    SLRU.set demoState10 0 99 ≠ none ∧ SLRU.get demoState10 0 ≠ none :=
  C2_no_evict_on_empty Nat Nat demoState10 0 99 (by decide)

set_option maxRecDepth 8000 in
/-- Claim C7, counterexample: the code computes
`int(0.2 * float64(size))` in float64 arithmetic, which differs from
`floor(0.2 × size) = size / 5` at `size = 11258999068426239 = 5·2^51 − 1`:
the float64 product rounds up to the next integer there. -/
theorem C7_float_rounding_exceeds_floor :
    (new Nat Nat 11258999068426239).probationSize ≠ 11258999068426239 / 5 := by
  decide

/-- Claim C7 (amended): for every positive `size ≤ 2 ^ 51` (every realistic
cache size), `New(size)` yields `probationCapacity = floor(0.2 × size) =
size / 5` and `protectedCapacity = size − size / 5`, the two summing to
`size`; in particular `size = 10` gives capacities 2 and 8 (see the witness).
For astronomically large sizes the float64 computation can exceed the floor,
first at `size = 5·2^51 − 1`. -/
theorem C7_capacity_split (K V : Type) (size : Nat) (h1 : 0 < size)
    (h2 : size ≤ 2 ^ 51) :
    (new K V size).probationSize = size / 5 ∧
    (new K V size).protectedSize = size - size / 5 ∧
    (new K V size).probationSize + (new K V size).protectedSize = size := by
  have hcap : goProbationCap size = size / 5 := goProbationCap_eq_div5 h1 h2
  refine ⟨hcap, by rw [show (new K V size).protectedSize =
    size - goProbationCap size from rfl, hcap], ?_⟩
  show goProbationCap size + (size - goProbationCap size) = size
  rw [hcap]
  have : size / 5 ≤ size := Nat.div_le_self size 5
  omega

theorem C7_witness :
    (new Nat Nat 10).probationSize = 2 ∧ (new Nat Nat 10).protectedSize = 8 := by
  have h := C7_capacity_split Nat Nat 10 (by norm_num) (by norm_num)
  exact ⟨by rw [h.1], by rw [h.2.1]⟩

set_option maxRecDepth 100000 in
/-- Claim C3, counterexample: fill `New(10)` so that protected holds 8 keys
(1..8) and probation holds 9 and 10; the map then has 10 keys and key 9 is
present.  `Set(9, 99)` — a Set on an existing key — promotes 9, pushes
protected to 9 entries, and evicts key 1 from the map: the map size drops
from 10 to 9, so this path does change the map size. -/
theorem C3_promotion_shrinks_map :
    (run (new Nat Nat 10) fillOps).map
        (fun s => (s.items.length, SLRU.containsKey s 9)) = some (10, true) ∧
    ((run (new Nat Nat 10) fillOps).bind fun s => SLRU.set s 9 99).map
        (fun s => s.items.length) = some 9 :=
  ⟨by decide, by decide⟩

/-- Claim C3 (amended): `Set` on an existing key never evicts from probation —
probation can lose at most the promoted key itself — and leaves the key set of
the map unchanged, except when the key is promoted out of probation while
protected is already at capacity: then exactly one key (the back of protected
after the push) is evicted and the map shrinks by one. -/
theorem C3_set_existing (K V : Type) [DecidableEq K] (s : SLRU K V)
    (hInv : SLRU.Inv s) (k : K) (v : V) (hk : (lookupKey k s.items).isSome) :
    ∃ s', SLRU.set s k v = some s' ∧
      s'.probation = s.probation.erase k ∧
      ((∀ j, j ∈ keys s'.items ↔ j ∈ keys s.items) ∧
          s'.items.length = s.items.length ∨
        k ∈ s.probation ∧ s.protectedSize < s.protectedL.length + 1 ∧
        ∃ victim, victim ∈ keys s.items ∧ lookupKey victim s'.items = none ∧
          s'.items.length + 1 = s.items.length ∧
          ∀ j, j ∈ keys s'.items ↔ j ∈ keys s.items ∧ j ≠ victim) := by
  obtain ⟨h1, h2, h3, h4, h5, h6, h7⟩ := hInv
  have hkm : k ∈ keys s.items := lookupKey_isSome_iff.mp hk
  by_cases hmp : k ∈ s.protectedL
  · have hknb : k ∉ s.probation := fun hm => h4 k hm hmp
    refine ⟨_, SLRU.set_hit_protected hk hmp, (List.erase_of_not_mem hknb).symm,
      Or.inl ⟨?_, ?_⟩⟩
    · intro j
      show j ∈ keys (updateValue k v s.items) ↔ j ∈ keys s.items
      rw [keys_updateValue]
    · exact length_updateValue
  · by_cases hmb : k ∈ s.probation
    · by_cases hgt : s.protectedSize < s.protectedL.length + 1
      · obtain ⟨p, hpop⟩ :=
          Option.isSome_iff_exists.mp (popBack_isSome_of_ne_nil
            (l := k :: s.protectedL) (by simp))
        obtain ⟨victim, rest⟩ := p
        have hvm : victim ∈ keys s.items := by
          rcases List.mem_cons.mp (popBack_mem hpop) with he | he
          · exact he ▸ hkm
          · exact h6 victim he
        refine ⟨⟨s.size, updateValue k v (eraseKey victim s.items),
          s.probation.erase k, rest, s.probationSize, s.protectedSize⟩, ?_, rfl,
          Or.inr ⟨hmb, hgt, victim, hvm, ?_, ?_, ?_⟩⟩
        · rw [SLRU.set_hit_probation hk hmp hmb, SLRU.promote_evict hgt hpop]
          rfl
        · show lookupKey victim (updateValue k v (eraseKey victim s.items)) = none
          by_cases hvk : victim = k
          · subst hvk
            rw [lookupKey_eq_none_iff, keys_updateValue]
            exact fun hm => (mem_keys_eraseKey.mp hm).2 rfl
          · rw [lookupKey_updateValue_ne hvk]
            exact lookupKey_eraseKey_self
        · show (updateValue k v (eraseKey victim s.items)).length + 1 = s.items.length
          rw [length_updateValue]
          exact length_eraseKey_add_one h1 hvm
        · intro j
          show j ∈ keys (updateValue k v (eraseKey victim s.items)) ↔
            j ∈ keys s.items ∧ j ≠ victim
          rw [keys_updateValue]
          exact mem_keys_eraseKey
      · refine ⟨⟨s.size, updateValue k v s.items, s.probation.erase k,
          k :: s.protectedL, s.probationSize, s.protectedSize⟩, ?_, rfl,
          Or.inl ⟨?_, ?_⟩⟩
        · rw [SLRU.set_hit_probation hk hmp hmb,
            SLRU.promote_noevict (Nat.not_lt.mp hgt)]
          rfl
        · intro j
          show j ∈ keys (updateValue k v s.items) ↔ j ∈ keys s.items
          rw [keys_updateValue]
        · exact length_updateValue
    · exact absurd (h7 k hkm) (by simp [hmp, hmb])

theorem C3_witness :
    ∃ s', SLRU.set demoState10 1 99 = some s' ∧
      s'.probation = demoState10.probation.erase 1 ∧
      ((∀ j, j ∈ keys s'.items ↔ j ∈ keys demoState10.items) ∧
          s'.items.length = demoState10.items.length ∨
        1 ∈ demoState10.probation ∧
        demoState10.protectedSize < demoState10.protectedL.length + 1 ∧
        ∃ victim, victim ∈ keys demoState10.items ∧
          lookupKey victim s'.items = none ∧
          s'.items.length + 1 = demoState10.items.length ∧
          ∀ j, j ∈ keys s'.items ↔ j ∈ keys demoState10.items ∧ j ≠ victim) :=
  C3_set_existing Nat Nat demoState10 (by decide) 1 99 (by decide)

/-- Claim C4 (confirmed): after every completed sequence of `Set` calls on a
freshly constructed cache, both segment lengths stay within their
capacities, and `Len()` equals the sum of the two segment lengths, which
also equals the number of keys in the lookup map. -/
theorem C4_capacity_invariant (K V : Type) [DecidableEq K] (size : Nat)
    (kvs : List (K × V)) (s : SLRU K V)
    (h : run (new K V size) (kvs.map fun p => Op.set p.1 p.2) = some s) :
    s.probation.length ≤ s.probationSize ∧
    s.protectedL.length ≤ s.protectedSize ∧
    SLRU.len s = s.probation.length + s.protectedL.length ∧
    SLRU.len s = s.items.length := by
  obtain ⟨hInv, hCap⟩ :=
    SLRU.run_preserves (SLRU.inv_new size) (SLRU.capOk_new size) h
  refine ⟨hCap.1, hCap.2, rfl, ?_⟩
  show s.probation.length + s.protectedL.length = s.items.length
  exact (SLRU.items_length_of_inv hInv).symm

set_option maxRecDepth 100000 in
theorem C4_witness :
    (⟨10, [(3, 30), (2, 20)], [3, 2], [], 2, 8⟩ : SLRU Nat Nat).probation.length ≤
        (⟨10, [(3, 30), (2, 20)], [3, 2], [], 2, 8⟩ : SLRU Nat Nat).probationSize ∧
      (⟨10, [(3, 30), (2, 20)], [3, 2], [], 2, 8⟩ : SLRU Nat Nat).protectedL.length ≤
        (⟨10, [(3, 30), (2, 20)], [3, 2], [], 2, 8⟩ : SLRU Nat Nat).protectedSize ∧
      SLRU.len (⟨10, [(3, 30), (2, 20)], [3, 2], [], 2, 8⟩ : SLRU Nat Nat) =
        (⟨10, [(3, 30), (2, 20)], [3, 2], [], 2, 8⟩ : SLRU Nat Nat).probation.length +
          (⟨10, [(3, 30), (2, 20)], [3, 2], [], 2, 8⟩ : SLRU Nat Nat).protectedL.length ∧
      SLRU.len (⟨10, [(3, 30), (2, 20)], [3, 2], [], 2, 8⟩ : SLRU Nat Nat) =
        (⟨10, [(3, 30), (2, 20)], [3, 2], [], 2, 8⟩ : SLRU Nat Nat).items.length :=
  C4_capacity_invariant Nat Nat 10 [(1, 10), (2, 20), (3, 30)] _ (by decide)

/-- Claim C5 (confirmed): when probation is filled to its capacity (at least
1) and a new key is inserted via `Set`, the evicted entry is exactly the back
(least recently touched) element of probation; afterwards `Contains` on the
victim is false, the new key sits at the front of probation, and the map
keys are exactly the old ones minus the victim plus the new key. -/
theorem C5_eviction_picks_back (K V : Type) [DecidableEq K] (s : SLRU K V)
    (hInv : SLRU.Inv s) (hfull : s.probationSize ≤ s.probation.length)
    (k : K) (v : V) (hk : lookupKey k s.items = none)
    (victim : K) (rest : List K)
    (hpop : popBack s.probation = some (victim, rest)) :
    ∃ s', SLRU.set s k v = some s' ∧
      s'.probation = k :: rest ∧
      SLRU.containsKey s' victim = false ∧
      victim ≠ k ∧
      ∀ j, j ∈ keys s'.items ↔ j = k ∨ (j ∈ keys s.items ∧ j ≠ victim) := by
  obtain ⟨h1, h2, h3, h4, h5, h6, h7⟩ := hInv
  have hkk : k ∉ keys s.items := lookupKey_eq_none_iff.mp hk
  have hvm : victim ∈ keys s.items := h5 victim (popBack_mem hpop)
  have hvk : victim ≠ k := fun he => hkk (he ▸ hvm)
  refine ⟨_, SLRU.set_miss_evict hk hfull hpop, rfl, ?_, hvk, ?_⟩
  · show (lookupKey victim ((k, v) :: eraseKey victim s.items)).isSome = false
    rw [lookupKey, if_neg (fun he => hvk he.symm), lookupKey_eraseKey_self]
    rfl
  · intro j
    show j ∈ keys ((k, v) :: eraseKey victim s.items) ↔
      j = k ∨ (j ∈ keys s.items ∧ j ≠ victim)
    rw [keys_cons, List.mem_cons]
    constructor
    · rintro (he | hm)
      · exact Or.inl he
      · exact Or.inr (mem_keys_eraseKey.mp hm)
    · rintro (he | hm)
      · exact Or.inl he
      · exact Or.inr (mem_keys_eraseKey.mpr hm)

theorem C5_witness :
    (∃ s', SLRU.set demoState10 3 30 = some s' ∧
      s'.probation = 3 :: [2] ∧
      SLRU.containsKey s' 1 = false ∧
      (1 : Nat) ≠ 3 ∧
      ∀ j, j ∈ keys s'.items ↔ j = 3 ∨ (j ∈ keys demoState10.items ∧ j ≠ 1)) ∧
    (SLRU.set demoState10 3 30).map
        (fun s' => (SLRU.containsKey s' 2, SLRU.containsKey s' 3)) =
      some (true, true) :=
  ⟨C5_eviction_picks_back Nat Nat demoState10 (by decide) (by decide) 3 30
      (by decide) 1 [2] (by decide),
    by decide⟩

/-- Claim C8 (confirmed): any number of `Peek` and `Contains` calls leave the
cache state literally unchanged, so a subsequent `Set` produces exactly the
state (and eviction victim) it would have produced without them. -/
theorem C8_peek_contains_pure (K V : Type) [DecidableEq K] (s : SLRU K V)
    (ops : List (Op K V)) (h : ∀ op ∈ ops, Op.isReadOnly op = true) :
    run s ops = some s ∧
    ∀ (k : K) (v : V),
      ((run s ops).bind fun t => SLRU.set t k v) = SLRU.set s k v := by
  have hrun : run s ops = some s := by
    induction ops with
    | nil => rfl
    | cons op ops ih =>
      have hop := h op (List.mem_cons_self ..)
      have hrest : ∀ op' ∈ ops, Op.isReadOnly op' = true :=
        fun op' hm => h op' (List.mem_cons_of_mem _ hm)
      cases op with
      | peek j =>
        show run s ops = some s
        exact ih hrest
      | contains j =>
        show run s ops = some s
        exact ih hrest
      | set j w => exact absurd hop (by simp [Op.isReadOnly])
      | get j => exact absurd hop (by simp [Op.isReadOnly])
      | purge => exact absurd hop (by simp [Op.isReadOnly])
  refine ⟨hrun, fun k v => ?_⟩
  rw [hrun, Option.some_bind]

theorem C8_witness :
    run demoState10 [Op.peek 1, Op.contains 2, Op.peek 7, Op.contains 9] =
        some demoState10 ∧
    ∀ (k : Nat) (v : Nat),
      ((run demoState10
          [Op.peek 1, Op.contains 2, Op.peek 7, Op.contains 9]).bind
        fun t => SLRU.set t k v) = SLRU.set demoState10 k v :=
  C8_peek_contains_pure Nat Nat demoState10
    [Op.peek 1, Op.contains 2, Op.peek 7, Op.contains 9] (by decide)

/-- Claim C9 (confirmed): after `Purge()` the cache length is 0 and
`Contains(k)` is false for every key `k`, in particular for every previously
inserted one; this holds from any cache state. -/
theorem C9_purge_empties (K V : Type) [DecidableEq K] (s : SLRU K V) :
    SLRU.len (SLRU.purge s) = 0 ∧
    ∀ k : K, SLRU.containsKey (SLRU.purge s) k = false :=
  ⟨rfl, fun _ => rfl⟩

/-- Claim C10 (confirmed): for a key absent from the map, `Get` returns the
missing-value result (the Go zero value paired with `false`, modelled as
`none`) and leaves the entire state unchanged, and `Peek` does the same. -/
theorem C10_miss_is_identity (K V : Type) [DecidableEq K] (s : SLRU K V)
    (k : K) (hk : lookupKey k s.items = none) :
    SLRU.get s k = some (s, none) ∧ SLRU.peek s k = (s, none) := by
  refine ⟨SLRU.get_miss hk, ?_⟩
  rw [SLRU.peek, hk]

theorem C10_witness :
    SLRU.get demoState10 5 = some (demoState10, none) ∧
    SLRU.peek demoState10 5 = (demoState10, none) :=
  C10_miss_is_identity Nat Nat demoState10 5 (by decide)

/-- Claim C6 (confirmed): on a cache of size ≥ 5 — the first conjunct shows
`New` then gives both segments capacity at least 1, and the second conjunct
holds on every coherent state with such capacities — `Set` of a new key
places it at the front of probation (not protected); the first `Get`
afterwards returns its value and promotes it into protected, removing it
from probation; and every further `Get` of a now-protected key only moves it
to the front of protected, leaving the map and probation untouched and the
length unchanged (so the key is never duplicated). -/
theorem C6_admission_and_promotion (K V : Type) [DecidableEq K] :
    (∀ size : Nat, 5 ≤ size → size < 2 ^ 63 →
      1 ≤ (new K V size).probationSize ∧ 1 ≤ (new K V size).protectedSize) ∧
    (∀ (s : SLRU K V) (k : K) (v : V), SLRU.Inv s → 1 ≤ s.probationSize →
      1 ≤ s.protectedSize → lookupKey k s.items = none →
      ∃ s1 s2, SLRU.set s k v = some s1 ∧ s1.probation.head? = some k ∧
        k ∉ s1.protectedL ∧
        SLRU.get s1 k = some (s2, some v) ∧ k ∈ s2.protectedL ∧
        k ∉ s2.probation ∧
        ∀ t : SLRU K V, SLRU.Inv t → k ∈ t.protectedL →
          ∃ t' w, SLRU.get t k = some (t', w) ∧
            t'.items = t.items ∧ t'.probation = t.probation ∧
            t'.protectedL = k :: t.protectedL.erase k ∧
            SLRU.len t' = SLRU.len t) := by
  constructor
  · intro size h5 h63
    constructor
    · show 1 ≤ goProbationCap size
      exact goProbationCap_pos h5 h63
    · show 1 ≤ size - goProbationCap size
      have := goProbationCap_lt_self h5 h63
      omega
  · intro s k v hInv hp hq hk
    have hInvDup := hInv
    obtain ⟨h1, h2, h3, h4, h5, h6, h7⟩ := hInvDup
    have hkk : k ∉ keys s.items := lookupKey_eq_none_iff.mp hk
    have hknp : k ∉ s.protectedL := fun hm => hkk (h6 k hm)
    by_cases hcap : s.probationSize ≤ s.probation.length
    · have hne : s.probation ≠ [] := by
        intro he
        rw [he] at hcap
        simp at hcap
        omega
      obtain ⟨p, hpop⟩ := Option.isSome_iff_exists.mp (popBack_isSome_of_ne_nil hne)
      obtain ⟨victim, rest⟩ := p
      have hset := SLRU.set_miss_evict (v := v) hk hcap hpop
      have hInv1 := SLRU.inv_set hInv hset
      obtain ⟨s2, hget, hmem2, hnot2⟩ := SLRU.promote_get_positions
        (u := ⟨s.size, (k, v) :: eraseKey victim s.items, k :: rest,
          s.protectedL, s.probationSize, s.protectedSize⟩)
        hInv1 hq (SLRU.lookupKey_cons_self k v _) hknp rfl
      exact ⟨_, s2, hset, rfl, hknp, hget, hmem2, hnot2,
        fun t hInvT hmemT => SLRU.get_protected_refresh hInvT hmemT⟩
    · have hset := SLRU.set_miss_noevict (v := v) hk (Nat.not_le.mp hcap)
      have hInv1 := SLRU.inv_set hInv hset
      obtain ⟨s2, hget, hmem2, hnot2⟩ := SLRU.promote_get_positions
        (u := ⟨s.size, (k, v) :: s.items, k :: s.probation,
          s.protectedL, s.probationSize, s.protectedSize⟩)
        hInv1 hq (SLRU.lookupKey_cons_self k v _) hknp rfl
      exact ⟨_, s2, hset, rfl, hknp, hget, hmem2, hnot2,
        fun t hInvT hmemT => SLRU.get_protected_refresh hInvT hmemT⟩

theorem C6_witness :
    (1 ≤ (new Nat Nat 10).probationSize ∧ 1 ≤ (new Nat Nat 10).protectedSize) ∧
    (∃ s1 s2, SLRU.set (new Nat Nat 10) 7 42 = some s1 ∧
      s1.probation.head? = some 7 ∧
      7 ∉ s1.protectedL ∧
      SLRU.get s1 7 = some (s2, some 42) ∧ 7 ∈ s2.protectedL ∧
      7 ∉ s2.probation ∧
      ∀ t : SLRU Nat Nat, SLRU.Inv t → 7 ∈ t.protectedL →
        ∃ t' w, SLRU.get t 7 = some (t', w) ∧
          t'.items = t.items ∧ t'.probation = t.probation ∧
          t'.protectedL = 7 :: t.protectedL.erase 7 ∧
          SLRU.len t' = SLRU.len t) :=
  ⟨(C6_admission_and_promotion Nat Nat).1 10 (by norm_num) (by norm_num),
    (C6_admission_and_promotion Nat Nat).2 (new Nat Nat 10) 7 42 (by decide)
      (by decide) (by decide) (by decide)⟩

end SlruSpec
